import Mathlib

/-!
# Verification of the opal-app coverage-document pipeline

A shallow embedding, in Lean 4, of the data model and operations of the
opal-app repository (`acord_filler.py` and `app.py`):

* a JSON-like value type (`JVal`) mirroring the Python data documents,
  with Python truthiness and (insertion-ordered) dict operations;
* the value formatters (`_fm` money formatter, `_parse_address`);
* the schema accessors and coverage-presence predicates
  (`_gl`, `_glL`, `_has_gl`, ..., `determine_forms`);
* the reconciliation backfill pass (`_preserve_fields`) and the
  `reconcile_extractions` fallback behaviour;
* an abstract model of the PDF fill engine (`fill_pdf`).

Python exceptions are modelled by `Option`/`Except` (a `none` / `.error ()`
result means the Python code raises at that point).  Parsed Python floats
are modelled by exact decimals plus the special values (`Dec` / `PyFloat`);
this is exact at every value the theorems below touch.  Mutation is
modelled by explicit state passing; the net effect of each Python function
on its arguments is reproduced.
-/

namespace Opal

/-- JSON-like values, mirroring the Python objects that flow through the
pipeline (`json.loads` output, extraction documents, resolver results).
Numbers (int and float alike) are carried as exact rationals. -/
inductive JVal where
  | null : JVal
  | bool (b : Bool) : JVal
  | num (q : ℚ) : JVal
  | str (s : String) : JVal
  | arr (xs : List JVal) : JVal
  | obj (fields : List (String × JVal)) : JVal

/-- A Python dict with string keys: an insertion-ordered association list. -/
abbrev JObj := List (String × JVal)

/-- Python truthiness (`bool(v)`): `None`, `False`, `0`, `""`, `[]`, and
`{}` are falsy, everything else truthy. -/
def truthy : JVal → Bool
  | .null => false
  | .bool b => b
  | .num q => q.num != 0
  | .str s => s != ""
  | .arr xs => !xs.isEmpty
  | .obj fs => !fs.isEmpty

/-- Truthiness of an optional value; a missing value (Python `None` from
`dict.get`) is falsy. -/
def truthyO : Option JVal → Bool
  | some v => truthy v
  | none => false

/-- Dictionary lookup (`d[k]` / `d.get(k)` without default): the value at
the first occurrence of the key. -/
def dGet : JObj → String → Option JVal
  | [], _ => none
  | p :: rest, k => if p.1 = k then some p.2 else dGet rest k

/-- Dictionary store (`d[k] = v`): update the first occurrence of the key
in place, else append at the end — Python dict insertion-order semantics. -/
def dSet : JObj → String → JVal → JObj
  | [], k, v => [(k, v)]
  | p :: rest, k, v => if p.1 = k then (k, v) :: rest else p :: dSet rest k v

/-- `d.get(k, dflt)`. -/
def dGetD (o : JObj) (k : String) (dflt : JVal) : JVal :=
  (dGet o k).getD dflt

/-- `d.get(k)`: missing keys give Python `None`. -/
def pyGet (o : JObj) (k : String) : JVal :=
  dGetD o k .null

/-- `v or {}`: the value if truthy, else an empty dict. -/
def pyOrEmptyObj (v : JVal) : JVal :=
  if truthy v then v else .obj []

/-- View a value as a dict, failing (like an `AttributeError` on `.get`)
on non-dicts. -/
def asObj : JVal → Option JObj
  | .obj fs => some fs
  | _ => none

/-- A path into a JSON value: dict keys and list indices. -/
inductive PathEl where
  | key (k : String) : PathEl
  | idx (n : Nat) : PathEl
deriving DecidableEq

/-- Follow a path of keys/indices into a value. -/
def getP : JVal → List PathEl → Option JVal
  | v, [] => some v
  | .obj fs, .key k :: p => (dGet fs k).bind (fun w => getP w p)
  | .arr xs, .idx n :: p => (xs.get? n).bind (fun w => getP w p)
  | _, _ :: _ => none

/-- Scalar (non-container) values. -/
def JVal.isScalar : JVal → Bool
  | .null => true
  | .bool _ => true
  | .num _ => true
  | .str _ => true
  | .arr _ => false
  | .obj _ => false

mutual

/-- Structural equality test on values, standing in for Python `==` where
the code compares data values (carrier names).  Numeric/boolean
cross-comparisons follow Python (`True == 1`); containers are compared
structurally (for dicts this is order-sensitive, a benign approximation —
the code only ever compares carrier-name values, which are strings in
every document the pipeline produces). -/
def JVal.pyEq : JVal → JVal → Bool
  | .null, .null => true
  | .bool a, .bool b => a == b
  | .bool a, .num q => q.num == (if a then 1 else 0) && q.den == 1
  | .num q, .bool a => q.num == (if a then 1 else 0) && q.den == 1
  | .num a, .num b => a.num == b.num && a.den == b.den
  | .str a, .str b => a == b
  | .arr a, .arr b => pyEqList a b
  | .obj a, .obj b => pyEqObj a b
  | _, _ => false

/-- Elementwise `pyEq` on lists. -/
def pyEqList : List JVal → List JVal → Bool
  | [], [] => true
  | x :: xs, y :: ys => JVal.pyEq x y && pyEqList xs ys
  | _, _ => false

/-- Pairwise `pyEq` on dict entries. -/
def pyEqObj : List (String × JVal) → List (String × JVal) → Bool
  | [], [] => true
  | (k, x) :: xs, (l, y) :: ys => k == l && JVal.pyEq x y && pyEqObj xs ys
  | _, _ => false

end

/-! ## Python string primitives used by the formatters -/

/-- Split a character list at every separator position (segments between
separators, empty segments kept). -/
def chSplit (p : Char → Bool) : List Char → List (List Char)
  | [] => [[]]
  | c :: rest =>
    match chSplit p rest with
    | [] => [[]]
    | g :: gs => if p c then [] :: g :: gs else (c :: g) :: gs

/-- `str.split(",")`: split on a separator character, keeping empty
segments. -/
def pySplitOn (s : String) (c : Char) : List String :=
  (chSplit (fun d => d = c) s.data).map String.mk

/-- `str.split()` with no argument: split on whitespace runs, dropping
empty segments. -/
def pySplitWS (s : String) : List String :=
  ((chSplit Char.isWhitespace s.data).map String.mk).filter (fun t => t ≠ "")

/-- `str.isdigit()` (over the ASCII digits the pipeline encounters). -/
def pyIsDigit (s : String) : Bool :=
  s ≠ "" && s.data.all Char.isDigit

/-- `str.strip()`: drop leading and trailing whitespace. -/
def pyStrip (s : String) : String :=
  String.mk (((s.data.dropWhile Char.isWhitespace).reverse.dropWhile
    Char.isWhitespace).reverse)

/-- `str.lower()`. -/
def pyLower (s : String) : String :=
  String.mk (s.data.map Char.toLower)

/-- `str.upper()`. -/
def pyUpper (s : String) : String :=
  String.mk (s.data.map Char.toUpper)

/-- `str.replace(old, new)` for a one-character pattern (the only form
`_parse_address` uses). -/
def replaceChar (s : String) (c : Char) (rep : String) : String :=
  String.join (s.data.map (fun d => if d = c then rep else String.singleton d))

/-! ## Python float model

`float(...)` values are modelled exactly: finite values by exact decimal
numbers (exact at every value the theorems touch), plus the special
values produced by `float("inf")` / `float("nan")`. -/

/-- An exact decimal number `m / 10 ^ s`.  All arithmetic on parsed float
literals happens in this representation, with plain integer operations. -/
structure Dec where
  m : ℤ
  s : ℕ
deriving DecidableEq

/-- A Python float: a finite value (an exact decimal), an infinity, or a
NaN. -/
inductive PyFloat where
  | finite (d : Dec) : PyFloat
  | inf : PyFloat
  | neginf : PyFloat
  | nan : PyFloat
deriving DecidableEq

/-- Consume a group of digits (with Python underscore-between-digits
grouping). First character is assumed to be a digit. Returns the value,
the number of digits read and the unread remainder. -/
def goDigits : Nat → Nat → List Char → Nat × Nat × List Char
  | acc, nd, [] => (acc, nd, [])
  | acc, nd, d :: rest =>
    if d.isDigit then goDigits (acc * 10 + (d.toNat - 48)) (nd + 1) rest
    else if d = '_' then
      match rest with
      | e :: rest2 =>
        if e.isDigit then goDigits (acc * 10 + (e.toNat - 48)) (nd + 1) rest2
        else (acc, nd, d :: e :: rest2)
      | [] => (acc, nd, [d])
    else (acc, nd, d :: rest)

/-- Parse an optional exponent suffix (input already lowercased) and apply
it to the mantissa; the input must be consumed entirely. -/
def parseExpPart (rest : List Char) (d : Dec) : Option Dec :=
  match rest with
  | [] => some d
  | 'e' :: rest2 =>
    let p := match rest2 with
      | '+' :: r => (false, r)
      | '-' :: r => (true, r)
      | r => (false, r)
    match p.2 with
    | c :: _ =>
      if c.isDigit then
        match goDigits 0 0 p.2 with
        | (ev, _, []) =>
          some (if p.1 then ⟨d.m, d.s + ev⟩ else ⟨d.m * ((10 ^ ev : ℕ) : ℤ), d.s⟩)
        | _ => none
      else none
    | [] => none
  | _ => none

/-- Parse an unsigned decimal literal (digits, optional fraction, optional
exponent), entire input. -/
def parseDecimal (cs : List Char) : Option Dec :=
  let ip := match cs with
    | c :: _ => if c.isDigit then goDigits 0 0 cs else (0, 0, cs)
    | [] => (0, 0, cs)
  match ip.2.2 with
  | '.' :: rest2 =>
    let fp := match rest2 with
      | c :: _ => if c.isDigit then goDigits 0 0 rest2 else (0, 0, rest2)
      | [] => (0, 0, rest2)
    if ip.2.1 + fp.2.1 = 0 then none
    else parseExpPart fp.2.2 ⟨(ip.1 : ℤ) * ((10 ^ fp.2.1 : ℕ) : ℤ) + (fp.1 : ℤ), fp.2.1⟩
  | _ =>
    if ip.2.1 = 0 then none
    else parseExpPart ip.2.2 ⟨(ip.1 : ℤ), 0⟩

/-- The body of a float literal after the optional sign (already
lowercased): the `inf`/`nan` keywords or a decimal literal. -/
def parseFloatBody (cs : List Char) (neg : Bool) : Option PyFloat :=
  if cs = "inf".data ∨ cs = "infinity".data then
    some (if neg then .neginf else .inf)
  else if cs = "nan".data then some .nan
  else (parseDecimal cs).map (fun d => .finite (if neg then ⟨-d.m, d.s⟩ else d))

/-- Python `float(s)` on a string: surrounding whitespace stripped,
optional sign, `inf`/`infinity`/`nan` keywords (case-insensitive) or a
decimal literal with optional exponent and underscore digit grouping.
`none` models a `ValueError`. -/
def pyFloatOfString (s : String) : Option PyFloat :=
  match (pyLower (pyStrip s)).data with
  | '+' :: rest => parseFloatBody rest false
  | '-' :: rest => parseFloatBody rest true
  | cs => parseFloatBody cs false

/-! ## Number rendering (`f-string` formats used by `_fm`) -/

/-- Insert a comma after every third character, working over the reversed
digit list. -/
def group3 : List Char → List Char
  | a :: b :: c :: d :: rest => a :: b :: c :: ',' :: group3 (d :: rest)
  | l => l

/-- Thousands-separate a digit string. -/
def groupDigits (s : String) : String :=
  String.mk (group3 s.data.reverse).reverse

/-- `f"{n:,}"` on an integer: sign plus thousands-separated digits. -/
def intComma (n : ℤ) : String :=
  (if n < 0 then "-" else "") ++ groupDigits (toString n.natAbs)

/-- Round the fraction `a / b` (with `b > 0`) to the nearest integer,
ties to even — the rounding used by Python `format`. -/
def rheND (a b : ℤ) : ℤ :=
  let f := Int.fdiv a b
  let r := a - f * b
  if 2 * r < b then f
  else if b < 2 * r then f + 1
  else if f % 2 = 0 then f else f + 1

/-- `f"{n:,.2f}"` on the fraction `a / b` (with `b > 0`):
thousands-separated rendering with exactly two decimal places. -/
def fm2decND (a b : ℤ) : String :=
  let r := rheND (a * 100) b
  let n := r.natAbs
  (if r < 0 then "-" else "") ++ groupDigits (toString (n / 100)) ++ "." ++
    (if n % 100 < 10 then "0" ++ toString (n % 100) else toString (n % 100))

mutual

/-- Python `repr` of a value (used by `str` on containers). String
quoting uses the apostrophe character; non-integral numbers are rendered
from their exact rational value. No theorem depends on this rendering. -/
def pyRepr : JVal → String
  | .null => "None"
  | .bool b => if b then "True" else "False"
  | .num q => if q.den = 1 then toString q.num else fm2decND q.num (q.den : ℤ)
  | .str s =>
    String.singleton (Char.ofNat 39) ++ s ++ String.singleton (Char.ofNat 39)
  | .arr xs => "[" ++ pyReprList xs ++ "]"
  | .obj fs => "\x7b" ++ pyReprObj fs ++ "\x7d"

/-- Comma-joined `repr` of list elements. -/
def pyReprList : List JVal → String
  | [] => ""
  | [x] => pyRepr x
  | x :: rest => pyRepr x ++ ", " ++ pyReprList rest

/-- Comma-joined `repr` of dict entries. -/
def pyReprObj : List (String × JVal) → String
  | [] => ""
  | [(k, v)] =>
    String.singleton (Char.ofNat 39) ++ k ++ String.singleton (Char.ofNat 39)
      ++ ": " ++ pyRepr v
  | (k, v) :: rest =>
    String.singleton (Char.ofNat 39) ++ k ++ String.singleton (Char.ofNat 39)
      ++ ": " ++ pyRepr v ++ ", " ++ pyReprObj rest

end

/-- Python `str(val)`. Strings print bare; containers print their repr. -/
def pyStr : JVal → String
  | .str s => s
  | v => pyRepr v

/-! ## The money formatter `_fm` (acord_filler.py lines 168-181) -/

/-- Format the finite numeric value `a / b` (with `b > 0`) the way the
`try` block of `_fm` does: zero means the coverage is excluded
(`n == 0`); values equal to their truncation (`n == int(n)`, i.e. `b`
divides `a`) print with thousands separators and no decimals;
non-integral values with exactly two decimals. -/
def fmNumND (a b : ℤ) : String :=
  if a = 0 then "Excluded"
  else if a % b = 0 then intComma (Int.tdiv a b)
  else fm2decND a b

/-- `fmNumND` on a rational (document numbers). -/
def fmNum (q : ℚ) : String :=
  fmNumND q.num (q.den : ℤ)

/-- `fmNumND` on a parsed decimal. -/
def fmNumDec (d : Dec) : String :=
  fmNumND d.m ((10 ^ d.s : ℕ) : ℤ)

/-- The test `val is None or val == ""` at the top of `_fm` (only the
empty string compares equal to `""` in Python). -/
def isNoneOrEmptyStr : JVal → Bool
  | .null => true
  | .str s => s = ""
  | _ => false

/-- `_fm(val)`: the money formatter. `.error ()` models the one uncaught
exception (`int(float("inf"))` raises `OverflowError`, which the
`except (ValueError, TypeError)` clause does not catch). -/
def _fm (val : JVal) : Except Unit String :=
  if isNoneOrEmptyStr val then .ok ""
  else
    match val with
    | .str s =>
      if pyLower s = "excluded" ∨ pyLower s = "excl" ∨ pyLower s = "n/a" then
        .ok "Excluded"
      else
        match pyFloatOfString s with
        | none => .ok s
        | some (.finite d) => .ok (fmNumDec d)
        | some .nan => .ok s
        | some .inf => .error ()
        | some .neginf => .error ()
    | .num q => .ok (fmNum q)
    | .bool b => .ok (fmNumND (if b then 1 else 0) 1)
    | v => .ok (pyStr v)

/-! ## The address decomposer `_parse_address` (acord_filler.py 130-158) -/

/-- The five output slots of `_parse_address`. -/
structure AddrRec where
  line1 : String
  line2 : String
  city : String
  state : String
  zip : String
deriving DecidableEq

/-- The all-empty address record. -/
def emptyAddr : AddrRec := ⟨"", "", "", "", ""⟩

/-- `_parse_address(addr)`: normalize line breaks to commas, split on
commas, trim, and decompose heuristically by segment count. -/
def _parse_address (addr0 : String) : AddrRec :=
  if addr0 = "" then emptyAddr
  else
    let addr := replaceChar (replaceChar addr0 '\n' ", ") '\x0d' ""
    let parts := (pySplitOn addr ',').map pyStrip
    if 3 ≤ parts.length then
      let lastSeg := pyStrip (parts.getLastD "")
      let last := pySplitWS lastSeg
      let r1 :=
        if 2 ≤ last.length ∧
            (pyIsDigit (last.getLastD "") ∨ 5 ≤ (last.getLastD "").length) then
          { emptyAddr with state := last.headD "", zip := last.getLastD "" }
        else if last.length = 1 ∧ pyIsDigit (last.headD "") then
          { emptyAddr with zip := last.headD "" }
        else
          { emptyAddr with state := lastSeg }
      let r2 := { r1 with
        city := pyStrip ((parts.get? (parts.length - 2)).getD "")
        line1 := pyStrip (parts.headD "") }
      if 3 < parts.length then
        { r2 with
          line2 := pyStrip (String.intercalate ", "
            ((parts.drop 1).take (parts.length - 3))) }
      else r2
    else if parts.length = 2 then
      let last := pySplitWS (pyStrip ((parts.get? 1).getD ""))
      if 3 ≤ last.length then
        { emptyAddr with
          line1 := pyStrip (parts.headD "")
          zip := last.getLastD ""
          state := (last.get? (last.length - 2)).getD ""
          city := " ".intercalate (last.take (last.length - 2)) }
      else
        { emptyAddr with
          line1 := pyStrip (parts.headD "")
          city := pyStrip ((parts.get? 1).getD "") }
    else { emptyAddr with line1 := addr }

/-! ## Schema accessors and coverage-presence predicates
(acord_filler.py lines 184-243 and 531-556)

Each accessor mirrors a chain like
`(d.get("acord25") or {}).get("gl", {}).get(k, "")`.
A `.get` on a truthy non-dict raises `AttributeError`, modelled by
`.error ()`; Python `or` short-circuiting is reproduced. -/

/-- `v.get(k, dflt)`: dictionary access that raises on non-dicts. -/
def pyGetAttrD (v : JVal) (k : String) (dflt : JVal) : Except Unit JVal :=
  match v with
  | .obj fs => .ok (dGetD fs k dflt)
  | _ => .error ()

/-- Python `a or b` on values. -/
def pyOr (a b : JVal) : JVal :=
  if truthy a then a else b

/-- `_a25(d, k)`: `(d.get("acord25") or {}).get(k, "")`. -/
def _a25 (d : JObj) (k : String) : Except Unit JVal :=
  pyGetAttrD (pyOrEmptyObj (pyGet d "acord25")) k (.str "")

/-- `_a25e(d, k)`: endorsement flag lookup with `False` default. -/
def _a25e (d : JObj) (k : String) : Except Unit JVal := do
  let e ← pyGetAttrD (pyOrEmptyObj (pyGet d "acord25")) "endorsements" (.obj [])
  pyGetAttrD e k (.bool false)

/-- `_gl(d, k)`: general-liability section lookup with `""` default. -/
def _gl (d : JObj) (k : String) : Except Unit JVal := do
  let g ← pyGetAttrD (pyOrEmptyObj (pyGet d "acord25")) "gl" (.obj [])
  pyGetAttrD g k (.str "")

/-- `_glL(d, k)`: general-liability limit lookup, formatted by `_fm`. -/
def _glL (d : JObj) (k : String) : Except Unit String := do
  let g ← pyGetAttrD (pyOrEmptyObj (pyGet d "acord25")) "gl" (.obj [])
  let lims ← pyGetAttrD g "limits" (.obj [])
  let v ← pyGetAttrD lims k .null
  _fm v

/-- `isinstance(v, (int, float))` — in Python `bool` is an `int`. -/
def isPyNumber : JVal → Bool
  | .num _ => true
  | .bool _ => true
  | _ => false

/-- `_au(d, k)`: auto section lookup; numeric values formatted by `_fm`. -/
def _au (d : JObj) (k : String) : Except Unit JVal := do
  let a ← pyGetAttrD (pyOrEmptyObj (pyGet d "acord25")) "auto" (.obj [])
  let v ← pyGetAttrD a k (.str "")
  if isPyNumber v then (fun s => .str s) <$> _fm v else pure v

/-- `_um(d, k)`: umbrella section lookup; numeric values formatted. -/
def _um (d : JObj) (k : String) : Except Unit JVal := do
  let a ← pyGetAttrD (pyOrEmptyObj (pyGet d "acord25")) "umbrella" (.obj [])
  let v ← pyGetAttrD a k (.str "")
  if isPyNumber v then (fun s => .str s) <$> _fm v else pure v

/-- `_wc(d, k)`: workers-comp section lookup; numeric values formatted. -/
def _wc (d : JObj) (k : String) : Except Unit JVal := do
  let a ← pyGetAttrD (pyOrEmptyObj (pyGet d "acord25")) "workersComp" (.obj [])
  let v ← pyGetAttrD a k (.str "")
  if isPyNumber v then (fun s => .str s) <$> _fm v else pure v

/-- `_has_gl(d)`: non-empty policy number, or a non-empty formatted
each-occurrence or general-aggregate limit (`or` short-circuits). -/
def _has_gl (d : JObj) : Except Unit Bool := do
  let pn ← _gl d "policyNumber"
  if truthy pn then pure true
  else do
    let eo ← _glL d "eachOccurrence"
    if eo ≠ "" then pure true
    else do
      let ga ← _glL d "generalAggregate"
      pure (ga ≠ "")

/-- `_has_auto(d)`. -/
def _has_auto (d : JObj) : Except Unit Bool := do
  let pn ← _au d "policyNumber"
  if truthy pn then pure true
  else do
    let c ← _au d "combinedSingleLimit"
    pure (truthy c)

/-- `_has_umbrella(d)`. -/
def _has_umbrella (d : JObj) : Except Unit Bool := do
  let pn ← _um d "policyNumber"
  if truthy pn then pure true
  else do
    let c ← _um d "eachOccurrence"
    pure (truthy c)

/-- `_has_wc(d)`. -/
def _has_wc (d : JObj) : Except Unit Bool := do
  let pn ← _wc d "policyNumber"
  if truthy pn then pure true
  else do
    let c ← _wc d "eachAccident"
    pure (truthy c)

/-- The base dict of the ACORD 30 accessors:
`(d.get("acord30") or d.get("acord28") or {})`. -/
def _a30base (d : JObj) : JVal :=
  pyOr (pyGet d "acord30") (pyOr (pyGet d "acord28") (.obj []))

/-- `_a30(d, k)`. -/
def _a30 (d : JObj) (k : String) : Except Unit JVal :=
  pyGetAttrD (_a30base d) k (.str "")

/-- `_a30_gl(d, k)`: garage-liability lookup (no default, `None`). -/
def _a30_gl (d : JObj) (k : String) : Except Unit JVal := do
  let g ← pyGetAttrD (_a30base d) "garageLiability" (.obj [])
  pyGetAttrD g k .null

/-- `_has_a30_garage(d)`. -/
def _has_a30_garage (d : JObj) : Except Unit Bool := do
  let pn ← _a30 d "policyNumber"
  if truthy pn then pure true
  else do
    let v ← _a30_gl d "autoOnlyEachAccident"
    pure (truthy v)

/-- `v is None`. -/
def isNull : JVal → Bool
  | .null => true
  | _ => false

/-- `determine_forms(data)` (acord_filler.py lines 884-894): a form number
is included iff its top-level key is present and not `None`. -/
def determine_forms (d : JObj) : List String :=
  (if isNull (pyGet d "acord25") then [] else ["25"]) ++
  (if isNull (pyGet d "acord27") then [] else ["27"]) ++
  (if isNull (pyGet d "acord28") then [] else ["28"]) ++
  (if isNull (pyGet d "acord30") then [] else ["30"])

/-- The `ACORD25_FIELDS` resolver for
`"CertificateOfInsurance_GeneralLiability_AdditionalInsuredCode_A"`
(acord_filler.py line 320):
`"Y" if _gl(d, "policyNumber") and _a25e(d, "additionalInsured") else ""`. -/
def acord25_gl_additional_insured (d : JObj) : Except Unit JVal := do
  let pn ← _gl d "policyNumber"
  if truthy pn then do
    let e ← _a25e d "additionalInsured"
    pure (if truthy e then JVal.str "Y" else JVal.str "")
  else pure (JVal.str "")

/-- The `ACORD25_FIELDS` resolver for
`"Policy_GeneralLiability_SubrogationWaivedCode_A"` (acord_filler.py
line 321):
`"Y" if _gl(d, "policyNumber") and _a25e(d, "waiverOfSubrogation") else ""`. -/
def acord25_gl_subrogation_waived (d : JObj) : Except Unit JVal := do
  let pn ← _gl d "policyNumber"
  if truthy pn then do
    let e ← _a25e d "waiverOfSubrogation"
    pure (if truthy e then JVal.str "Y" else JVal.str "")
  else pure (JVal.str "")

/-! ## The reconciliation backfill pass `_preserve_fields`
(app.py lines 336-404)

The Python function mutates `reconciled` in place; here each stage maps
the old document to the new one.  A `none` result models an uncaught
exception inside `_preserve_fields` (e.g. the `TypeError` from
`reconciled.setdefault(form_key, {})[section] = ...` when the form key
holds `None`, or an `AttributeError` from `.get` on a truthy non-dict) —
`reconcile_extractions` catches it and falls back. -/

/-- The inner loop `for field, value in source.items(): if value and not
merged.get(field): merged[field] = value` — copy truthy source entries
into falsy-or-missing slots. -/
def backfillDict : JObj → JObj → JObj
  | m, [] => m
  | m, p :: rest =>
    backfillDict
      (if truthy p.2 && !truthyO (dGet m p.1) then dSet m p.1 p.2 else m) rest

/-- `(x.get(form_key) or {}).get(section, {})` — evaluated both for the
reconciled base and for each source extraction. `none` models the
`AttributeError` when the form key holds a truthy non-dict. -/
def sourceSection (formKey sect : String) (ext : JObj) : Option JVal :=
  match pyOrEmptyObj (pyGet ext formKey) with
  | .obj fs => some (dGetD fs sect (.obj []))
  | _ => none

/-- The `for ext in extractions` loop of the sectioned branch: backfill
the merged section from each source's section dict (non-dict source
sections are skipped). -/
def backfillFromSources (formKey sect : String) :
    JObj → List JObj → Option JObj
  | ms, [] => some ms
  | ms, ext :: rest =>
    match sourceSection formKey sect ext with
    | none => none
    | some (.obj sf) =>
      backfillFromSources formKey sect (backfillDict ms sf) rest
    | some _ => backfillFromSources formKey sect ms rest

/-- `reconciled.setdefault(form_key, {})[section] = v`. Raises
(`TypeError`) when the form key holds a non-dict such as `None`. -/
def setdefaultSet (recO : JObj) (k sk : String) (v : JVal) : Option JObj :=
  match dGet recO k with
  | some (.obj fs) => some (dSet recO k (.obj (dSet fs sk v)))
  | some _ => none
  | none => some (recO ++ [(k, .obj [(sk, v)])])

/-- One section of the `acord25` branch of `_preserve_fields`: extract
the merged section, skip if not a dict, backfill from every source, and
store the result back when non-empty. -/
def processSection (recO : JObj) (exts : List JObj) (formKey sect : String) :
    Option JObj :=
  match sourceSection formKey sect recO with
  | none => none
  | some (.obj ms0) =>
    match backfillFromSources formKey sect ms0 exts with
    | none => none
    | some msF =>
      if msF.isEmpty then some recO else setdefaultSet recO formKey sect (.obj msF)
  | some _ => some recO

/-- Process a list of sections in order. -/
def processSections (recO : JObj) (exts : List JObj) (formKey : String) :
    List String → Option JObj
  | [] => some recO
  | s :: rest =>
    match processSection recO exts formKey s with
    | none => none
    | some r => processSections r exts formKey rest

/-- One field of the sectionless (`acord27/28/30`) branch: dict values
are backfilled one level deep (and stored back unconditionally), scalars
only into falsy-or-missing slots. -/
def elseField (mf : JObj) (field : String) (value : JVal) : JObj :=
  match value with
  | .obj subF =>
    match dGetD mf field (.obj []) with
    | .obj msubF => dSet mf field (.obj (backfillDict msubF subF))
    | _ => mf
  | _ =>
    if truthy value && !truthyO (dGet mf field) then dSet mf field value else mf

/-- Fold `elseField` over a source form's items. -/
def elseFields : JObj → List (String × JVal) → JObj
  | mf, [] => mf
  | mf, (f, v) :: rest => elseFields (elseField mf f v) rest

/-- The `for ext in extractions` loop of the sectionless branch; the
`Bool` records whether `reconciled[form_key] = merged_form` ever ran
(it runs once per source whose form value is a dict or falsy). -/
def elseExts (formKey : String) : JObj → Bool → List JObj → JObj × Bool
  | mf, assigned, [] => (mf, assigned)
  | mf, assigned, ext :: rest =>
    match pyOrEmptyObj (pyGet ext formKey) with
    | .obj sf => elseExts formKey (elseFields mf sf) true rest
    | _ => elseExts formKey mf assigned rest

/-- The sectionless branch of `_preserve_fields` for one form key. -/
def processFormElse (recO : JObj) (exts : List JObj) (formKey : String) : JObj :=
  match pyOrEmptyObj (pyGet recO formKey) with
  | .obj mf0 =>
    match elseExts formKey mf0 false exts with
    | (mfF, true) => dSet recO formKey (.obj mfF)
    | (_, false) => recO
  | _ => recO

/-- The source loop of the top-level-keys pass
(`insured`/`producer`/`endorsements`/`certificateHolder`). -/
def backfillTopSources (topKey : String) : JObj → List JObj → JObj
  | mt, [] => mt
  | mt, ext :: rest =>
    match dGetD ext topKey (.obj []) with
    | .obj st => backfillTopSources topKey (backfillDict mt st) rest
    | _ => backfillTopSources topKey mt rest

/-- The top-level-keys pass for one key: skipped when the reconciled
value is a non-dict, else backfilled from every source and stored back. -/
def processTop (recO : JObj) (exts : List JObj) (topKey : String) : JObj :=
  match dGetD recO topKey (.obj []) with
  | .obj mt0 => dSet recO topKey (.obj (backfillTopSources topKey mt0 exts))
  | _ => recO

/-- Python iteration over a value (`for x in v`): lists yield elements,
dicts their keys, strings their characters; other values raise
`TypeError`. -/
def pyIterL : JVal → Option (List JVal)
  | .arr xs => some xs
  | .obj fs => some (fs.map (fun p => JVal.str p.1))
  | .str s => some (s.data.map (fun c => JVal.str (String.singleton c)))
  | _ => none

/-- Every element is a dict. -/
def allObjs (xs : List JVal) : Bool :=
  xs.all (fun x => match x with | .obj _ => true | _ => false)

/-- The comprehension
`[x for x in reconciled.get("carriers", []) if x.get("name") == name]`,
which evaluates `x.get("name")` on every element (raising on non-dicts)
and of which only the first hit (`existing[0]`) is used: return the index
and fields of the first matching carrier, if any. -/
def carrierScan : List JVal → JVal → Option (Option (Nat × JObj))
  | [], _ => some none
  | .obj fs :: rest, name =>
    if JVal.pyEq (dGetD fs "name" .null) name then
      if allObjs rest then some (some (0, fs)) else none
    else
      match carrierScan rest name with
      | none => none
      | some none => some none
      | some (some (i, g)) => some (some (i + 1, g))
  | _ :: _, _ => none

/-- One source carrier `c` of the carriers pass: skip unnamed carriers,
find the first reconciled carrier with the same name, and backfill its
falsy-or-missing fields from `c`. -/
def carrierStep (recO : JObj) (c : JVal) : Option JObj :=
  match c with
  | .obj cF =>
    let name := dGetD cF "name" (.str "")
    if truthy name then
      match pyIterL (dGetD recO "carriers" (.arr [])) with
      | none => none
      | some xs =>
        match carrierScan xs name with
        | none => none
        | some none => some recO
        | some (some (i, exF)) =>
          some (dSet recO "carriers" (.arr (xs.set i (.obj (backfillDict exF cF)))))
    else some recO
  | _ => none

/-- Fold `carrierStep` over one extraction's carriers. -/
def carrierSteps : JObj → List JVal → Option JObj
  | r, [] => some r
  | r, c :: rest =>
    match carrierStep r c with
    | none => none
    | some r2 => carrierSteps r2 rest

/-- The carriers pass of `_preserve_fields` over all extractions. -/
def carrierStage : JObj → List JObj → Option JObj
  | r, [] => some r
  | r, ext :: rest =>
    match pyIterL (dGetD ext "carriers" (.arr [])) with
    | none => none
    | some cs =>
      match carrierSteps r cs with
      | none => none
      | some r2 => carrierStage r2 rest

/-- `_preserve_fields(reconciled, extractions)` (app.py lines 336-404):
the post-merge backfill pass.  Stages, in source order: the four
`acord25` coverage sections, the sectionless `acord27`/`acord28`/
`acord30` forms, the four top-level keys, and the carriers pass. -/
def _preserve_fields (recO : JObj) (exts : List JObj) : Option JObj :=
  match processSections recO exts "acord25" ["gl", "auto", "umbrella", "workersComp"] with
  | none => none
  | some r4 =>
    let r7 := processFormElse (processFormElse (processFormElse r4 exts "acord27")
                exts "acord28") exts "acord30"
    let r11 := processTop (processTop (processTop (processTop r7 exts "insured")
                exts "producer") exts "endorsements") exts "certificateHolder"
    carrierStage r11 exts

/-- `reconcile_extractions(client, extractions, classifications)`
(app.py lines 407-426), abstracted over the external call: `upstream` is
`some r` when the model call and `json.loads` succeed with document `r`,
`none` when that step raises.  Any exception inside the `try` block —
including one raised by `_preserve_fields` itself — is caught and the
first extraction (or `{}`) is returned as-is. -/
def reconcile_extractions (upstream : Option JObj) (exts : List JObj) : JObj :=
  match upstream with
  | some r =>
    match _preserve_fields r exts with
    | some res => res
    | none => exts.headD []
  | none => exts.headD []

/-! ### Helpers for stating properties of the merged document -/

/-- The value of one field of one coverage section of a form, read off a
document: `d[formKey][section][f]`, `none` when any step is missing or
not a dict. -/
def sectionField (d : JObj) (formKey sect f : String) : Option JVal :=
  match pyGet d formKey with
  | .obj a =>
    match dGet a sect with
    | some (.obj m) => dGet m f
    | _ => none
  | _ => none

/-- The merged-section dict the sectioned branch of `_preserve_fields`
starts from (`(reconciled.get(form_key) or {}).get(section, {})`),
exposed for stating hypotheses about the base document's shape. -/
def readSectionVal (d : JObj) (formKey sect : String) : Option JVal :=
  sourceSection formKey sect d

/-- The carriers list of a document (empty unless `carriers` holds a
list). -/
def carriersArr (d : JObj) : List JVal :=
  match dGet d "carriers" with
  | some (.arr xs) => xs
  | _ => []

/-- The letters under which the document's carriers are listed. -/
def carrierLetters (d : JObj) : List JVal :=
  (carriersArr d).map (fun x =>
    match x with
    | .obj fs => dGetD fs "letter" .null
    | _ => .null)

/-- `L` is the letter of some carrier in the document's carriers list. -/
def hasCarrierLetter (d : JObj) (L : String) : Prop :=
  ∃ i, ∃ h : i < (carriersArr d).length,
    ∃ fs, (carriersArr d).get ⟨i, h⟩ = .obj fs ∧
      dGet fs "letter" = some (.str L)

/-! ## The PDF fill engine (acord_filler.py lines 748-877)

The template is modelled as the flattened list of its interactive-field
annotations, each carrying its own name and type together with its parent
chain's names and types and its appearance data.  `fill_pdf`'s effect is
modelled as a `FillResult`: the resolved value dict, the per-annotation
write actions (and whether a file was written at all), and the
match/unmatch diagnostics. -/

/-- One interactive-field annotation of a template: own `/T` and `/FT`,
the `(/T, /FT)` pairs of the parent chain (nearest parent first), and the
appearance data used for checkbox on-state discovery (`apTruthy` is
`bool(annot.get("/AP"))`; `nKeys` the keys of the truthy `/N` entry, when
present). -/
structure PAnnot where
  t : String
  ft : String
  parents : List (String × String)
  apTruthy : Bool
  nKeys : Option (List String)

/-- `_get_qualified_name(annot)` (acord_filler.py 781-792): the non-empty
parent names, outermost first, followed by the annotation's own name,
joined with dots. -/
def _get_qualified_name (a : PAnnot) : String :=
  String.intercalate "."
    (((a.parents.filter (fun p => p.1 ≠ "")).reverse.map Prod.fst) ++
      (if a.t ≠ "" then [a.t] else []))

/-- `_get_field_type(annot)` (acord_filler.py 766-778): the annotation's
own `/FT`, else the nearest ancestor's non-empty `/FT`, else `""`. -/
def _get_field_type (a : PAnnot) : String :=
  if a.ft ≠ "" then a.ft
  else
    match a.parents.find? (fun p => p.2 ≠ "") with
    | some p => p.2
    | none => ""

/-- `_discover_checkbox_on_state(annot)` (acord_filler.py 748-763): the
first `/N` appearance key other than `/Off`, with `/Yes` as the fallback
whenever `/AP` is falsy, `/N` is falsy, or no such key exists. -/
def _discover_checkbox_on_state (a : PAnnot) : String :=
  if !a.apTruthy then "/Yes"
  else
    match a.nKeys with
    | some keys =>
      match keys.find? (fun k => k ≠ "/Off") with
      | some k => k
      | none => "/Yes"
    | none => "/Yes"

/-- A field resolver: a function of the coverage document that may raise
(`.error ()`). -/
abbrev Resolver := JObj → Except Unit JVal

/-- The skip test of the resolution pass:
`val is None or val == "" or val is False`. -/
def isSkipVal : JVal → Bool
  | .null => true
  | .str s => s = ""
  | .bool b => !b
  | _ => false

/-- The resolution pass of `fill_pdf` (lines 802-812): evaluate every
resolver in map order; a raising resolver is recorded as a warning and
skipped; absent/empty/false values are dropped; the rest build the
`fill_values` dict. -/
def resolveAllAux (d : JObj) : JObj → List String → List (String × Resolver) →
    JObj × List String
  | fv, errs, [] => (fv, errs)
  | fv, errs, (n, r) :: rest =>
    match r d with
    | .error _ => resolveAllAux d fv (errs ++ [n]) rest
    | .ok v =>
      if isSkipVal v then resolveAllAux d fv errs rest
      else resolveAllAux d (dSet fv n v) errs rest

/-- `fill_values` and the list of fields whose resolver raised. -/
def resolveAll (fieldMap : List (String × Resolver)) (d : JObj) :
    JObj × List String :=
  resolveAllAux d [] [] fieldMap

/-- What gets written onto one annotation. -/
inductive WriteAct where
  | btn (onState : String) : WriteAct
  | text (s : String) : WriteAct

/-- `fill_values.get(short_name) or fill_values.get(qualified)` followed
by the `if val is None: continue` test. -/
def annotLookup (fv : JObj) (a : PAnnot) : Option JVal :=
  if truthyO (dGet fv a.t) then dGet fv a.t
  else dGet fv (_get_qualified_name a)

/-- The checkbox write guard:
`val is True or (isinstance(val, str) and val.upper() in ("Y", "YES"))`. -/
def isBtnOn : JVal → Bool
  | .bool b => b
  | .str s => pyUpper s = "Y" || pyUpper s = "YES"
  | _ => false

/-- `short_name or qualified`: the name recorded in `matched_fields`. -/
def pyOrStr (a b : String) : String :=
  if a ≠ "" then a else b

/-- The per-annotation body of the fill loop (lines 826-855): look the
annotation up in `fill_values`, dispatch on field type, and return the
write action (if any) together with the matched-name record (if any). -/
def annotAction (fv : JObj) (a : PAnnot) : Option WriteAct × Option String :=
  match annotLookup fv a with
  | none => (none, none)
  | some v =>
    if _get_field_type a = "/Btn" then
      if isBtnOn v then
        (some (.btn (_discover_checkbox_on_state a)),
         some (pyOrStr a.t (_get_qualified_name a)))
      else (none, none)
    else
      (some (.text (pyStr v)), some (pyOrStr a.t (_get_qualified_name a)))

/-- The observable outcome of `fill_pdf`: the resolved values, the
resolver-error warnings, the written annotations (`output = none` means
the function returned early and wrote no file), the fill/match counters
and the unmatched diagnostic set. -/
structure FillResult where
  fillValues : JObj
  resolveErrors : List String
  output : Option (List (PAnnot × Option WriteAct))
  filled : Nat
  matched : List String
  unmatched : List String
  noValuesReported : Bool

/-- `fill_pdf(template_path, output_path, field_map, data)` (lines
795-877): resolve every field, return early (writing nothing) when no
value survives, else walk the template's annotations writing matched
values and report the unmatched resolved names. -/
def fill_pdf (tmpl : List PAnnot) (fieldMap : List (String × Resolver))
    (d : JObj) : FillResult :=
  let rv := resolveAll fieldMap d
  if rv.1.isEmpty then
    { fillValues := rv.1, resolveErrors := rv.2, output := none, filled := 0,
      matched := [], unmatched := [], noValuesReported := true }
  else
    let acts := tmpl.map (fun a => (a, annotAction rv.1 a))
    let matchedL := acts.filterMap (fun p => p.2.2)
    { fillValues := rv.1, resolveErrors := rv.2,
      output := some (acts.map (fun p => (p.1, p.2.1))),
      filled := (acts.filter (fun p => p.2.1.isSome)).length,
      matched := matchedL,
      unmatched := (rv.1.map Prod.fst).filter (fun n => !matchedL.contains n),
      noValuesReported := false }

/-- Scalar-path preservation between two values: every truthy scalar
reachable by a path in the first is found unchanged at the same path in
the second. -/
def ScalarPresV (a b : JVal) : Prop :=
  ∀ p v, getP a p = some v → v.isScalar = true → truthy v = true →
    getP b p = some v

/-! ## Concrete documents used by counterexamples and witnesses -/

/-- C1 counterexample base: a merged document whose GL section already
has a non-empty `limits` record. -/
def c1Base : JObj :=
  [("acord25", .obj [("gl", .obj
    [("policyNumber", .str "GL-1"),
     ("limits", .obj [("eachOccurrence", .num 1000000)])])])]

/-- C1 counterexample source: an extraction contributing a GL limit the
base lacks, nested inside `limits`. -/
def c1Src : JObj :=
  [("acord25", .obj [("gl", .obj
    [("limits", .obj [("generalAggregate", .num 2000000)])])])]

/-- C1 witness base: GL section with only a policy number. -/
def c1WBase : JObj :=
  [("acord25", .obj [("gl", .obj [("policyNumber", .str "GL-1")])])]

/-- C1 witness source: an extraction contributing a top-level GL field. -/
def c1WSrc : JObj :=
  [("acord25", .obj [("gl", .obj [("effectiveDate", .str "01/01/2025")])])]

/-- C2 counterexample first extraction: empty GL policy number. -/
def c2D1 : JObj :=
  [("acord25", .obj [("gl", .obj [("policyNumber", .str "")])])]

/-- C2 counterexample second extraction: the only source carrying the GL
policy number. -/
def c2D2 : JObj :=
  [("acord25", .obj [("gl", .obj [("policyNumber", .str "GL-9")])])]

/-- C2 witness extraction. -/
def c2W1 : JObj :=
  [("insured", .obj [("name", .str "Acme LLC")])]

/-- C3 counterexample: `acord25` present (so form 25 is generated) but
with an empty GL section (so the presence predicate is false). -/
def c3Data : JObj :=
  [("acord25", .obj [("gl", .obj [])])]

/-- C3 witness: a GL section whose presence predicate holds. -/
def c3WData : JObj :=
  [("acord25", .obj [("gl", .obj [("policyNumber", .str "GL-1")])])]

/-- C5 counterexample template: one text field named `X`. -/
def c5Tmpl : List PAnnot :=
  [{ t := "X", ft := "/Tx", parents := [], apTruthy := false, nKeys := none }]

/-- C5 counterexample field map: the single resolver produces an empty
string, so nothing survives the skip filter. -/
def c5Map : List (String × Resolver) :=
  [("X", fun _ => .ok (.str ""))]

/-- C5 witness field map: one raising resolver, one `None`, one `False` —
all dropped. -/
def c5WMap : List (String × Resolver) :=
  [("A", fun _ => .error ()), ("B", fun _ => .ok .null),
   ("C", fun _ => .ok (.bool false))]

/-- C6 counterexample base: one carrier lettered `A`, GL section without
an insurer letter. -/
def c6Base : JObj :=
  [("carriers", .arr [.obj [("letter", .str "A"), ("name", .str "Acme")]]),
   ("acord25", .obj [("gl", .obj [("policyNumber", .str "P1")])])]

/-- C6 counterexample source: its own letter scheme assigned `B` to the
GL carrier. -/
def c6Ext : JObj :=
  [("acord25", .obj [("gl", .obj [("insurerLetter", .str "B")])])]

/-- C6 witness base: letter-consistent document. -/
def c6WBase : JObj :=
  [("carriers", .arr [.obj [("letter", .str "A"), ("name", .str "Acme")]]),
   ("acord25", .obj [("gl", .obj [("insurerLetter", .str "A")])])]

/-- C7 counterexample: GL present per the presence predicate (limit set)
with the endorsement confirmed, but no policy number. -/
def c7Data : JObj :=
  [("acord25", .obj
    [("gl", .obj
      [("policyNumber", .str ""),
       ("limits", .obj [("eachOccurrence", .num 1000000)])]),
     ("endorsements", .obj [("additionalInsured", .bool true)])])]

/-- C7 witness: policy number and endorsement both present. -/
def c7WData : JObj :=
  [("acord25", .obj
    [("gl", .obj [("policyNumber", .str "GL-1")]),
     ("endorsements", .obj
       [("additionalInsured", .bool true),
        ("waiverOfSubrogation", .bool true)])])]

/-- C8 witness template: one text field named `A`. -/
def c8Tmpl : List PAnnot :=
  [{ t := "A", ft := "/Tx", parents := [], apTruthy := false, nKeys := none }]

/-- C8 witness field map: a raising resolver next to a healthy one. -/
def c8Map : List (String × Resolver) :=
  [("BAD", fun _ => .error ()), ("A", fun _ => .ok (.str "hello"))]

/-- C10 counterexample base: GL section holding only a policy number. -/
def c10Base : JObj :=
  [("acord25", .obj [("gl", .obj [("policyNumber", .str "GL-1")])])]

/-- C10 counterexample source: contributes an extra GL field, so the
dict at `acord25.gl` changes. -/
def c10Ext : JObj :=
  [("acord25", .obj [("gl", .obj [("effectiveDate", .str "02/02/2025")])])]

/-- C10 witness base. -/
def c10WBase : JObj :=
  [("insured", .obj [("name", .str "Acme LLC")]),
   ("acord25", .obj [("gl", .obj [("policyNumber", .str "GL-7")])])]

/-- C10 witness source. -/
def c10WExt : JObj :=
  [("insured", .obj [("name", .str "Acme Limited Liability Co")])]

/-! # Theorems -/

/-- C9: `_parse_address` decomposes the well-formed input
`"123 Main St, Suite 4, Springfield, IL 62704"` into
line1 = `123 Main St`, line2 = `Suite 4`, city = `Springfield`,
state = `IL`, zip = `62704`. -/
theorem parse_address_well_formed :
    _parse_address "123 Main St, Suite 4, Springfield, IL 62704" =
      { line1 := "123 Main St", line2 := "Suite 4", city := "Springfield",
        state := "IL", zip := "62704" } := by
  decide

/-- C4: the currency formatter `_fm` maps `0` to `Excluded`; the
exclusion literals `Excluded`/`Excl`/`N/A` (case-insensitive) to
`Excluded`; `1000000` to `1,000,000`; `1500.5` to `1,500.50`; `None` and
the empty string to `""`; strings that parse as no float pass through
unchanged; and an exactly-zero limit — numeric zero, `False`, or a
string parsing to zero — always renders as `Excluded`, never as `0` or
`$0`. -/
theorem currency_formatter_spec :
    _fm (.num 0) = .ok "Excluded" ∧
    _fm (.num 1000000) = .ok "1,000,000" ∧
    _fm (.num (Rat.mk' 3001 2)) = .ok "1,500.50" ∧
    _fm .null = .ok "" ∧
    _fm (.str "") = .ok "" ∧
    _fm (.bool false) = .ok "Excluded" ∧
    ("Excluded" ≠ "0" ∧ "Excluded" ≠ "$0") ∧
    (∀ s : String,
      (pyLower s = "excluded" ∨ pyLower s = "excl" ∨ pyLower s = "n/a") →
      _fm (.str s) = .ok "Excluded") ∧
    (∀ s : String, s ≠ "" →
      ¬(pyLower s = "excluded" ∨ pyLower s = "excl" ∨ pyLower s = "n/a") →
      pyFloatOfString s = none → _fm (.str s) = .ok s) ∧
    (∀ (s : String) (d : Dec), s ≠ "" →
      ¬(pyLower s = "excluded" ∨ pyLower s = "excl" ∨ pyLower s = "n/a") →
      pyFloatOfString s = some (.finite d) → d.m = 0 →
      _fm (.str s) = .ok "Excluded") := by
  refine ⟨rfl, rfl, rfl, rfl, rfl, rfl, ⟨by decide, by decide⟩, ?_, ?_, ?_⟩
  · intro s hs
    have hne : isNoneOrEmptyStr (.str s) = false := by
      simp only [isNoneOrEmptyStr, decide_eq_false_iff_not]
      intro he
      subst he
      rcases hs with h | h | h <;> exact absurd h (by decide)
    simp only [_fm, hne, Bool.false_eq_true, if_false, if_pos hs]
  · intro s hne0 hlit hparse
    have hne : isNoneOrEmptyStr (.str s) = false := by
      simp only [isNoneOrEmptyStr, decide_eq_false_iff_not]
      exact hne0
    simp only [_fm, hne, Bool.false_eq_true, if_false, if_neg hlit, hparse]
  · intro s d hne0 hlit hparse hzero
    have hne : isNoneOrEmptyStr (.str s) = false := by
      simp only [isNoneOrEmptyStr, decide_eq_false_iff_not]
      exact hne0
    simp only [_fm, hne, Bool.false_eq_true, if_false, if_neg hlit, hparse]
    simp [fmNumDec, fmNumND, hzero]

/-- C4 witness: the hypothesised parts of `currency_formatter_spec`
discharged at concrete inputs. -/
theorem currency_formatter_spec_witness :
    _fm (.str "EXCL") = .ok "Excluded" ∧
    _fm (.str "Included") = .ok "Included" ∧
    _fm (.str "0.0") = .ok "Excluded" :=
  ⟨currency_formatter_spec.2.2.2.2.2.2.2.1 "EXCL" (by decide),
   currency_formatter_spec.2.2.2.2.2.2.2.2.1 "Included" (by decide) (by decide) (by decide),
   currency_formatter_spec.2.2.2.2.2.2.2.2.2 "0.0" ⟨0, 1⟩ (by decide) (by decide)
     (by decide) rfl⟩

/-- The resolution pass leaves `fill_values` untouched when every
resolver raises or produces a skippable value. -/
theorem resolveAllAux_skip_all (d : JObj) (fv : JObj) (errs : List String)
    (l : List (String × Resolver))
    (h : ∀ p ∈ l, p.2 d = .error () ∨ ∃ v, p.2 d = .ok v ∧ isSkipVal v = true) :
    (resolveAllAux d fv errs l).1 = fv := by
  induction l generalizing errs with
  | nil => rfl
  | cons p rest ih =>
    obtain ⟨n, r⟩ := p
    have hrest : ∀ q ∈ rest, q.2 d = .error () ∨
        ∃ v, q.2 d = .ok v ∧ isSkipVal v = true :=
      fun q hq => h q (List.mem_cons_of_mem _ hq)
    simp only [resolveAllAux]
    cases hrd : r d with
    | error u => exact ih _ hrest
    | ok v =>
      have hskip : isSkipVal v = true := by
        rcases h (n, r) (List.mem_cons_self _ _) with he | ⟨w, hw, hsk⟩
        · have he2 : r d = Except.error () := he
          rw [he2] at hrd
          exact Except.noConfusion hrd
        · have hw2 : r d = Except.ok w := hw
          rw [hw2] at hrd
          injection hrd with h2
          rwa [← h2]
      simp only [hskip, if_true]
      exact ih _ hrest

/-- C5 counterexample: with a template holding one text field and a field
map whose only resolver yields the empty string, `fill_pdf` writes
nothing — its output is `none`, not the unmodified template, so the
original template is NOT returned at the output location. -/
theorem fill_pdf_empty_set_counterexample :
    (fill_pdf c5Tmpl c5Map []).output = none ∧
    (fill_pdf c5Tmpl c5Map []).output ≠ some (c5Tmpl.map (fun a => (a, none))) := by
  refine ⟨rfl, ?_⟩
  intro h
  rw [show (fill_pdf c5Tmpl c5Map []).output = none from rfl] at h
  exact Option.noConfusion h

/-- C5 (amended): when every resolver produces an absent, empty-string,
or boolean-false value (or raises), the empty resolved field set is
reported as a non-fatal diagnostic and `fill_pdf` returns early without
raising — but it writes nothing at the output location (the template is
not copied there). -/
theorem fill_pdf_empty_resolved (tmpl : List PAnnot)
    (fieldMap : List (String × Resolver)) (d : JObj)
    (h : ∀ p ∈ fieldMap, p.2 d = .error () ∨
      ∃ v, p.2 d = .ok v ∧ isSkipVal v = true) :
    (fill_pdf tmpl fieldMap d).fillValues = [] ∧
    (fill_pdf tmpl fieldMap d).output = none ∧
    (fill_pdf tmpl fieldMap d).noValuesReported = true := by
  have hfv : (resolveAll fieldMap d).1 = [] := resolveAllAux_skip_all d [] [] fieldMap h
  refine ⟨?_, ?_, ?_⟩ <;> simp [fill_pdf, hfv]

/-- C5 witness: `fill_pdf_empty_resolved` discharged at a concrete
template, field map and document. -/
theorem fill_pdf_empty_resolved_witness :
    (fill_pdf c5Tmpl c5WMap []).fillValues = [] ∧
    (fill_pdf c5Tmpl c5WMap []).output = none ∧
    (fill_pdf c5Tmpl c5WMap []).noValuesReported = true :=
  fill_pdf_empty_resolved c5Tmpl c5WMap [] (by
    intro p hp
    simp only [c5WMap, List.mem_cons, List.not_mem_nil, or_false] at hp
    rcases hp with rfl | rfl | rfl
    · exact Or.inl rfl
    · exact Or.inr ⟨.null, rfl, rfl⟩
    · exact Or.inr ⟨.bool false, rfl, rfl⟩)

/-- C2 counterexample: when the upstream reconciliation step raises,
`reconcile_extractions` returns the first extraction without the
backfill pass: the fallback's GL policy number is still empty although
the second source carries `GL-9`, which the backfill pass (had it run,
as the claim states) would have preserved. -/
theorem merge_fallback_counterexample :
    reconcile_extractions none [c2D1, c2D2] = c2D1 ∧
    sectionField (reconcile_extractions none [c2D1, c2D2])
      "acord25" "gl" "policyNumber" = some (.str "") ∧
    (_preserve_fields c2D1 [c2D1, c2D2]).bind
      (fun r => sectionField r "acord25" "gl" "policyNumber") =
      some (.str "GL-9") :=
  ⟨rfl, rfl, rfl⟩

/-- C2 (amended): when the upstream reconciliation step raises (or when
`_preserve_fields` itself raises inside the `try` block),
`reconcile_extractions` returns the first source document verbatim —
without the backfill pass — or `{}` when there are no extractions. -/
theorem merge_fallback_verbatim :
    (∀ (exts : List JObj) (h : exts ≠ []),
      reconcile_extractions none exts = exts.head h) ∧
    (∀ (r : JObj) (exts : List JObj), _preserve_fields r exts = none →
      reconcile_extractions (some r) exts = exts.headD []) := by
  constructor
  · intro exts h
    cases exts with
    | nil => exact absurd rfl h
    | cons a rest => rfl
  · intro r exts hpf
    simp [reconcile_extractions, hpf]

/-- C2 witness: `merge_fallback_verbatim` discharged at a concrete
extraction list. -/
theorem merge_fallback_verbatim_witness :
    reconcile_extractions none [c2W1] = [c2W1].head (by simp) :=
  merge_fallback_verbatim.1 [c2W1] (by simp)

/-- A falsy `acord25` value makes the GL presence predicate false. -/
theorem has_gl_of_falsy (d : JObj) (h : truthy (pyGet d "acord25") = false) :
    _has_gl d = .ok false := by
  have h1 : pyOrEmptyObj (pyGet d "acord25") = .obj [] := by
    unfold pyOrEmptyObj
    rw [h]
    rfl
  unfold _has_gl _gl _glL
  rw [h1]
  rfl

/-- A falsy `acord25` value makes the auto presence predicate false. -/
theorem has_auto_of_falsy (d : JObj) (h : truthy (pyGet d "acord25") = false) :
    _has_auto d = .ok false := by
  have h1 : pyOrEmptyObj (pyGet d "acord25") = .obj [] := by
    unfold pyOrEmptyObj
    rw [h]
    rfl
  unfold _has_auto _au
  rw [h1]
  rfl

/-- A falsy `acord25` value makes the umbrella presence predicate false. -/
theorem has_umbrella_of_falsy (d : JObj) (h : truthy (pyGet d "acord25") = false) :
    _has_umbrella d = .ok false := by
  have h1 : pyOrEmptyObj (pyGet d "acord25") = .obj [] := by
    unfold pyOrEmptyObj
    rw [h]
    rfl
  unfold _has_umbrella _um
  rw [h1]
  rfl

/-- A falsy `acord25` value makes the workers-comp presence predicate
false. -/
theorem has_wc_of_falsy (d : JObj) (h : truthy (pyGet d "acord25") = false) :
    _has_wc d = .ok false := by
  have h1 : pyOrEmptyObj (pyGet d "acord25") = .obj [] := by
    unfold pyOrEmptyObj
    rw [h]
    rfl
  unfold _has_wc _wc
  rw [h1]
  rfl

/-- Falsy `acord30` and `acord28` values make the garage presence
predicate false. -/
theorem has_a30_of_falsy (d : JObj) (h30 : truthy (pyGet d "acord30") = false)
    (h28 : truthy (pyGet d "acord28") = false) :
    _has_a30_garage d = .ok false := by
  have h1 : _a30base d = .obj [] := by
    unfold _a30base pyOr
    rw [h30, h28]
    rfl
  unfold _has_a30_garage _a30 _a30_gl
  rw [h1]
  rfl

/-- Truthy values are not `None`. -/
theorem isNull_of_truthy (v : JVal) (h : truthy v = true) : isNull v = false := by
  cases v <;> simp_all [truthy, isNull]

/-- C3 counterexample: a document whose `acord25` key is present but
whose GL section is empty — form 25 is in the output set although the GL
presence predicate (which synthesizes the coverage indicator) is false,
so the two predicates are not equal. -/
theorem determine_forms_counterexample :
    determine_forms c3Data = ["25"] ∧ _has_gl c3Data = .ok false :=
  ⟨rfl, rfl⟩

/-- C3 (amended): form inclusion is decided by `determine_forms`' test
that the form key is present and non-`None`, which the presence
predicates imply but are not equivalent to: whenever a coverage block's
presence predicate holds, the block's form is in the output set (for the
garage predicate, form 30 — or form 28, whose data the ACORD 30
accessors fall back to); the converse fails. -/
theorem presence_implies_form_inclusion (d : JObj) :
    ((_has_gl d = .ok true ∨ _has_auto d = .ok true ∨
      _has_umbrella d = .ok true ∨ _has_wc d = .ok true) →
      "25" ∈ determine_forms d) ∧
    (_has_a30_garage d = .ok true →
      "30" ∈ determine_forms d ∨ "28" ∈ determine_forms d) := by
  constructor
  · intro hp
    by_cases h : truthy (pyGet d "acord25") = true
    · have hn := isNull_of_truthy _ h
      simp [determine_forms, hn]
    · have hf : truthy (pyGet d "acord25") = false := by
        exact Bool.not_eq_true _ ▸ Bool.of_not_eq_true h
      rcases hp with h1 | h1 | h1 | h1
      · rw [has_gl_of_falsy d hf] at h1
        simp at h1
      · rw [has_auto_of_falsy d hf] at h1
        simp at h1
      · rw [has_umbrella_of_falsy d hf] at h1
        simp at h1
      · rw [has_wc_of_falsy d hf] at h1
        simp at h1
  · intro hp
    by_cases h30 : truthy (pyGet d "acord30") = true
    · have hn := isNull_of_truthy _ h30
      exact Or.inl (by simp [determine_forms, hn])
    · have hf30 : truthy (pyGet d "acord30") = false := by
        exact Bool.not_eq_true _ ▸ Bool.of_not_eq_true h30
      by_cases h28 : truthy (pyGet d "acord28") = true
      · have hn := isNull_of_truthy _ h28
        exact Or.inr (by simp [determine_forms, hn])
      · have hf28 : truthy (pyGet d "acord28") = false := by
          exact Bool.not_eq_true _ ▸ Bool.of_not_eq_true h28
        rw [has_a30_of_falsy d hf30 hf28] at hp
        simp at hp

/-- C3 witness: `presence_implies_form_inclusion` discharged at a
concrete document with GL present. -/
theorem presence_implies_form_inclusion_witness :
    "25" ∈ determine_forms c3WData :=
  (presence_implies_form_inclusion c3WData).1 (Or.inl rfl)

/-- C7 counterexample: a GL block that is present per the presence
predicate (each-occurrence limit set) with the additional-insured
endorsement explicitly true, yet the resolver yields `""` rather than
`"Y"` — the code guards on the policy number alone, not on the presence
predicate. -/
theorem endorsement_gate_counterexample :
    _has_gl c7Data = .ok true ∧
    _a25e c7Data "additionalInsured" = .ok (.bool true) ∧
    acord25_gl_additional_insured c7Data = .ok (.str "") ∧
    acord25_gl_additional_insured c7Data ≠ .ok (.str "Y") := by
  refine ⟨rfl, rfl, rfl, ?_⟩
  intro h
  rw [show acord25_gl_additional_insured c7Data = .ok (.str "") from rfl] at h
  simp at h

/-- C7 (amended): the ACORD 25 GL additional-insured and
waiver-of-subrogation resolvers produce `"Y"` exactly when the GL
policy number is non-empty (not the presence predicate) AND the
corresponding endorsement flag is truthy; whenever they return at all,
the result is `"Y"` or `""`. -/
theorem endorsement_gate_policy_number (d : JObj) :
    (acord25_gl_additional_insured d = .ok (.str "Y") ↔
      (∃ pn, _gl d "policyNumber" = .ok pn ∧ truthy pn = true) ∧
      (∃ e, _a25e d "additionalInsured" = .ok e ∧ truthy e = true)) ∧
    (∀ v, acord25_gl_additional_insured d = .ok v →
      v = .str "Y" ∨ v = .str "") ∧
    (acord25_gl_subrogation_waived d = .ok (.str "Y") ↔
      (∃ pn, _gl d "policyNumber" = .ok pn ∧ truthy pn = true) ∧
      (∃ e, _a25e d "waiverOfSubrogation" = .ok e ∧ truthy e = true)) ∧
    (∀ v, acord25_gl_subrogation_waived d = .ok v →
      v = .str "Y" ∨ v = .str "") := by
  refine ⟨?_, ?_, ?_, ?_⟩
  · unfold acord25_gl_additional_insured
    cases hgl : _gl d "policyNumber" with
    | error u => simp [hgl, Bind.bind, Except.bind]
    | ok pn =>
      cases he : _a25e d "additionalInsured" with
      | error u =>
        by_cases hpn : truthy pn = true <;>
          simp [hgl, he, hpn, Bind.bind, Except.bind, Pure.pure, Except.pure]
      | ok e =>
        by_cases hpn : truthy pn = true <;> by_cases hte : truthy e = true <;>
          simp [hgl, he, hpn, hte, Bind.bind, Except.bind, Pure.pure, Except.pure]
  · intro v hv
    unfold acord25_gl_additional_insured at hv
    cases hgl : _gl d "policyNumber" with
    | error u =>
      rw [hgl] at hv
      simp [Bind.bind, Except.bind] at hv
    | ok pn =>
      rw [hgl] at hv
      by_cases hpn : truthy pn = true
      · cases he : _a25e d "additionalInsured" with
        | error u =>
          rw [he] at hv
          simp [hpn, Bind.bind, Except.bind] at hv
        | ok e =>
          rw [he] at hv
          by_cases hte : truthy e = true <;>
            simp [hpn, hte, Bind.bind, Except.bind, Pure.pure, Except.pure] at hv <;>
            subst hv <;> simp
      · simp [hpn, Bind.bind, Except.bind, Pure.pure, Except.pure] at hv
        subst hv
        simp
  · unfold acord25_gl_subrogation_waived
    cases hgl : _gl d "policyNumber" with
    | error u => simp [hgl, Bind.bind, Except.bind]
    | ok pn =>
      cases he : _a25e d "waiverOfSubrogation" with
      | error u =>
        by_cases hpn : truthy pn = true <;>
          simp [hgl, he, hpn, Bind.bind, Except.bind, Pure.pure, Except.pure]
      | ok e =>
        by_cases hpn : truthy pn = true <;> by_cases hte : truthy e = true <;>
          simp [hgl, he, hpn, hte, Bind.bind, Except.bind, Pure.pure, Except.pure]
  · intro v hv
    unfold acord25_gl_subrogation_waived at hv
    cases hgl : _gl d "policyNumber" with
    | error u =>
      rw [hgl] at hv
      simp [Bind.bind, Except.bind] at hv
    | ok pn =>
      rw [hgl] at hv
      by_cases hpn : truthy pn = true
      · cases he : _a25e d "waiverOfSubrogation" with
        | error u =>
          rw [he] at hv
          simp [hpn, Bind.bind, Except.bind] at hv
        | ok e =>
          rw [he] at hv
          by_cases hte : truthy e = true <;>
            simp [hpn, hte, Bind.bind, Except.bind, Pure.pure, Except.pure] at hv <;>
            subst hv <;> simp
      · simp [hpn, Bind.bind, Except.bind, Pure.pure, Except.pure] at hv
        subst hv
        simp

/-- C7 witness: `endorsement_gate_policy_number` discharged at a
concrete document with both guards satisfied. -/
theorem endorsement_gate_policy_number_witness :
    acord25_gl_additional_insured c7WData = .ok (.str "Y") :=
  (endorsement_gate_policy_number c7WData).1.mpr
    ⟨⟨.str "GL-1", rfl, rfl⟩, ⟨.bool true, rfl, rfl⟩⟩

/-! ### Dictionary lemmas -/

/-- Looking up the key just stored. -/
theorem dGet_dSet_self (o : JObj) (k : String) (v : JVal) :
    dGet (dSet o k v) k = some v := by
  induction o with
  | nil => simp [dSet, dGet]
  | cons p rest ih =>
    by_cases h : p.1 = k
    · simp [dSet, h, dGet]
    · simp [dSet, h, dGet, ih]

/-- Storing one key leaves every other key's value unchanged. -/
theorem dGet_dSet_ne (o : JObj) (k k' : String) (v : JVal) (h : k' ≠ k) :
    dGet (dSet o k v) k' = dGet o k' := by
  have h2 : ¬(k = k') := fun he => h he.symm
  induction o with
  | nil => simp [dSet, dGet, h2]
  | cons p rest ih =>
    by_cases hp : p.1 = k
    · simp [dSet, hp, dGet, h2]
    · simp only [dSet, hp, if_false]
      by_cases hp' : p.1 = k'
      · simp [dGet, hp']
      · simp [dGet, hp', ih]

/-- A successful lookup on a missing key after appending one entry. -/
theorem dGet_append_single (o : JObj) (k k2 : String) (v : JVal) (h : k ≠ k2) :
    dGet (o ++ [(k2, v)]) k = dGet o k := by
  have h2 : ¬(k2 = k) := fun he => h he.symm
  induction o with
  | nil => simp [dGet, h2]
  | cons p rest ih =>
    by_cases hp : p.1 = k
    · simp [dGet, hp]
    · simp [dGet, hp, ih]

/-- Appending one entry and then looking it up, when the key was
missing. -/
theorem dGet_append_single_self (o : JObj) (k : String) (v : JVal)
    (h : dGet o k = none) :
    dGet (o ++ [(k, v)]) k = some v := by
  induction o with
  | nil => simp [dGet]
  | cons p rest ih =>
    by_cases hp : p.1 = k
    · simp [dGet, hp] at h
    · simp [dGet, hp] at h ⊢
      exact ih h

/-- `dSet` on a missing key is exactly an append. -/
theorem dSet_eq_append (o : JObj) (k : String) (v : JVal)
    (h : dGet o k = none) :
    dSet o k v = o ++ [(k, v)] := by
  induction o with
  | nil => simp [dSet]
  | cons p rest ih =>
    by_cases hp : p.1 = k
    · simp [dGet, hp] at h
    · simp [dGet, hp] at h
      simp [dSet, hp, ih h]

/-- A dict with a successful lookup is non-empty. -/
theorem dGet_some_ne_nil (o : JObj) (k : String) (v : JVal)
    (h : dGet o k = some v) : o ≠ [] := by
  intro he
  rw [he] at h
  exact Option.noConfusion h

/-! ### Resolution-pass lemmas (C8) -/

/-- Truthy values survive the skip filter. -/
theorem truthy_not_skip (v : JVal) (h : truthy v = true) :
    isSkipVal v = false := by
  cases v <;> simp_all [truthy, isSkipVal]

/-- The `fill_values` made by the resolution pass do not depend on the
warnings accumulator. -/
theorem resolveAllAux_fst_errs_irrel (d : JObj) (fv : JObj)
    (errs errs' : List String) (l : List (String × Resolver)) :
    (resolveAllAux d fv errs l).1 = (resolveAllAux d fv errs' l).1 := by
  induction l generalizing fv errs errs' with
  | nil => rfl
  | cons p rest ih =>
    obtain ⟨n, r⟩ := p
    simp only [resolveAllAux]
    cases r d with
    | error u => exact ih _ _ _
    | ok v =>
      by_cases hs : isSkipVal v = true
      · simp only [hs, if_true]
        exact ih _ _ _
      · simp only [hs, if_false]
        exact ih _ _ _

/-- Dropping the entries of a key whose resolver always raises does not
change `fill_values`. -/
theorem resolveAllAux_fst_filter_err (d : JObj) (fv : JObj)
    (errs errs' : List String) (l : List (String × Resolver)) (f : String)
    (h : ∀ p ∈ l, p.1 = f → p.2 d = .error ()) :
    (resolveAllAux d fv errs l).1 =
      (resolveAllAux d fv errs' (l.filter (fun p => p.1 ≠ f))).1 := by
  induction l generalizing fv errs errs' with
  | nil => rfl
  | cons p rest ih =>
    obtain ⟨n, r⟩ := p
    have hrest : ∀ p ∈ rest, p.1 = f → p.2 d = .error () :=
      fun q hq => h q (List.mem_cons_of_mem _ hq)
    by_cases hn : n = f
    · have herr : r d = .error () := h (n, r) (List.mem_cons_self _ _) hn
      rw [List.filter_cons_of_neg (by simp [hn])]
      simp only [resolveAllAux, herr]
      exact ih _ _ _ hrest
    · rw [List.filter_cons_of_pos (by simp [hn])]
      simp only [resolveAllAux]
      cases r d with
      | error u => exact ih _ _ _ hrest
      | ok v =>
        by_cases hs : isSkipVal v = true
        · simp only [hs, if_true]
          exact ih _ _ _ hrest
        · simp only [hs, if_false]
          exact ih _ _ _ hrest

/-- If no entry has the key, the resolution pass leaves that key's value
unchanged. -/
theorem resolveAllAux_dGet_pres (d : JObj) (fv : JObj) (errs : List String)
    (l : List (String × Resolver)) (g : String)
    (h : ∀ p ∈ l, p.1 ≠ g) :
    dGet (resolveAllAux d fv errs l).1 g = dGet fv g := by
  induction l generalizing fv errs with
  | nil => rfl
  | cons p rest ih =>
    obtain ⟨n, r⟩ := p
    have hrest : ∀ p ∈ rest, p.1 ≠ g := fun q hq => h q (List.mem_cons_of_mem _ hq)
    have hn : n ≠ g := h (n, r) (List.mem_cons_self _ _)
    simp only [resolveAllAux]
    cases r d with
    | error u => exact ih _ _ hrest
    | ok v =>
      by_cases hs : isSkipVal v = true
      · simp only [hs, if_true]
        exact ih _ _ hrest
      · simp only [hs, Bool.false_eq_true, if_false]
        rw [ih _ _ hrest, dGet_dSet_ne _ _ _ _ (fun he => hn he.symm)]

/-- A key whose resolvers always raise never enters `fill_values`. -/
theorem resolveAllAux_dGet_err (d : JObj) (fv : JObj) (errs : List String)
    (l : List (String × Resolver)) (f : String)
    (h : ∀ p ∈ l, p.1 = f → p.2 d = .error ()) :
    dGet (resolveAllAux d fv errs l).1 f = dGet fv f := by
  induction l generalizing fv errs with
  | nil => rfl
  | cons p rest ih =>
    obtain ⟨n, r⟩ := p
    have hrest : ∀ p ∈ rest, p.1 = f → p.2 d = .error () :=
      fun q hq => h q (List.mem_cons_of_mem _ hq)
    simp only [resolveAllAux]
    cases hrd : r d with
    | error u => exact ih _ _ hrest
    | ok v =>
      have hn : n ≠ f := by
        intro he
        have h3 : r d = Except.error () := h (n, r) (List.mem_cons_self _ _) he
        rw [hrd] at h3
        exact Except.noConfusion h3
      by_cases hs : isSkipVal v = true
      · simp only [hs, if_true]
        exact ih _ _ hrest
      · simp only [hs, Bool.false_eq_true, if_false]
        rw [ih _ _ hrest, dGet_dSet_ne _ _ _ _ (fun he => hn he.symm)]

/-- Warnings already accumulated stay reported. -/
theorem resolveAllAux_errs_mono (d : JObj) (fv : JObj) (errs : List String)
    (l : List (String × Resolver)) (x : String) (h : x ∈ errs) :
    x ∈ (resolveAllAux d fv errs l).2 := by
  induction l generalizing fv errs with
  | nil => exact h
  | cons p rest ih =>
    obtain ⟨n, r⟩ := p
    simp only [resolveAllAux]
    cases r d with
    | error u => exact ih _ _ (List.mem_append_left _ h)
    | ok v =>
      by_cases hs : isSkipVal v = true
      · simp only [hs, if_true]
        exact ih _ _ h
      · simp only [hs, Bool.false_eq_true, if_false]
        exact ih _ _ h

/-- A field whose resolver raises is reported in the warnings. -/
theorem resolveAllAux_err_mem (d : JObj) (fv : JObj) (errs : List String)
    (l : List (String × Resolver)) (f : String) (r : Resolver)
    (hmem : (f, r) ∈ l) (herr : r d = .error ()) :
    f ∈ (resolveAllAux d fv errs l).2 := by
  induction l generalizing fv errs with
  | nil => exact absurd hmem (List.not_mem_nil _)
  | cons p rest ih =>
    obtain ⟨n, rr⟩ := p
    rcases List.mem_cons.mp hmem with he | htail
    · injection he with hn hr
      subst hn
      subst hr
      simp only [resolveAllAux, herr]
      exact resolveAllAux_errs_mono d fv _ rest f
        (List.mem_append_right _ (List.mem_singleton.mpr rfl))
    · simp only [resolveAllAux]
      cases rr d with
      | error u => exact ih _ _ htail
      | ok v =>
        by_cases hs : isSkipVal v = true
        · simp only [hs, if_true]
          exact ih _ _ htail
        · simp only [hs, Bool.false_eq_true, if_false]
          exact ih _ _ htail

/-- With duplicate-free keys, a healthy entry's value lands in
`fill_values`. -/
theorem resolveAllAux_dGet_ok (d : JObj) (fv : JObj) (errs : List String)
    (l : List (String × Resolver)) (g : String) (rg : Resolver) (v : JVal)
    (hnd : (l.map Prod.fst).Nodup)
    (hmem : (g, rg) ∈ l) (hok : rg d = .ok v) (hsk : isSkipVal v = false) :
    dGet (resolveAllAux d fv errs l).1 g = some v := by
  induction l generalizing fv errs with
  | nil => exact absurd hmem (List.not_mem_nil _)
  | cons p rest ih =>
    obtain ⟨n, rr⟩ := p
    have hnd2 := (List.nodup_cons.mp hnd).2
    have hnotin := (List.nodup_cons.mp hnd).1
    rcases List.mem_cons.mp hmem with he | htail
    · injection he with hn hr
      subst hn
      subst hr
      simp only [resolveAllAux, hok, hsk, Bool.false_eq_true, if_false]
      have hrest : ∀ p ∈ rest, p.1 ≠ g := by
        intro q hq he2
        exact hnotin (List.mem_map.mpr ⟨q, hq, he2⟩)
      rw [resolveAllAux_dGet_pres d _ _ rest g hrest, dGet_dSet_self]
    · simp only [resolveAllAux]
      cases rr d with
      | error u => exact ih _ _ hnd2 htail
      | ok w =>
        by_cases hs : isSkipVal w = true
        · simp only [hs, if_true]
          exact ih _ _ hnd2 htail
        · simp only [hs, Bool.false_eq_true, if_false]
          exact ih _ _ hnd2 htail

/-- With duplicate-free keys, two entries with the same key coincide. -/
theorem resolver_key_unique (l : List (String × Resolver)) (f : String)
    (r r' : Resolver) (hnd : (l.map Prod.fst).Nodup)
    (h1 : (f, r) ∈ l) (h2 : (f, r') ∈ l) : r = r' := by
  induction l with
  | nil => exact absurd h1 (List.not_mem_nil _)
  | cons p rest ih =>
    obtain ⟨n, rr⟩ := p
    have hnd2 := (List.nodup_cons.mp hnd).2
    have hnotin := (List.nodup_cons.mp hnd).1
    rcases List.mem_cons.mp h1 with he1 | ht1 <;>
      rcases List.mem_cons.mp h2 with he2 | ht2
    · injection he1 with hn1 hr1
      injection he2 with hn2 hr2
      rw [hr1, hr2]
    · injection he1 with hn1 hr1
      exact absurd (List.mem_map.mpr ⟨(f, r'), ht2, hn1⟩) hnotin
    · injection he2 with hn2 hr2
      exact absurd (List.mem_map.mpr ⟨(f, r), ht1, hn2⟩) hnotin
    · exact ih hnd2 ht1 ht2

/-- The `fillValues` component of `fill_pdf` is the resolution pass
output in both branches. -/
theorem fill_pdf_fillValues (tmpl : List PAnnot)
    (fieldMap : List (String × Resolver)) (d : JObj) :
    (fill_pdf tmpl fieldMap d).fillValues = (resolveAll fieldMap d).1 := by
  unfold fill_pdf
  by_cases h : (resolveAll fieldMap d).1.isEmpty <;> simp [h]

/-- The `resolveErrors` component of `fill_pdf` is the resolution pass
warnings in both branches. -/
theorem fill_pdf_resolveErrors (tmpl : List PAnnot)
    (fieldMap : List (String × Resolver)) (d : JObj) :
    (fill_pdf tmpl fieldMap d).resolveErrors = (resolveAll fieldMap d).2 := by
  unfold fill_pdf
  by_cases h : (resolveAll fieldMap d).1.isEmpty <;> simp [h]

/-- A matched-name record always names the annotation's short or
qualified name. -/
theorem annotAction_matched_name (fv : JObj) (a : PAnnot) (m : String)
    (h : (annotAction fv a).2 = some m) :
    m = a.t ∨ m = _get_qualified_name a := by
  unfold annotAction at h
  cases hl : annotLookup fv a with
  | none =>
    rw [hl] at h
    exact Option.noConfusion (show (none : Option String) = some m from h)
  | some v =>
    rw [hl] at h
    by_cases hft : _get_field_type a = "/Btn"
    · by_cases hb : isBtnOn v = true
      · have h2 : some (pyOrStr a.t (_get_qualified_name a)) = some m := by
          simp only [hft, hb, if_true] at h
          exact h
        injection h2 with h3
        unfold pyOrStr at h3
        by_cases ht : a.t ≠ ""
        · rw [if_pos ht] at h3
          exact Or.inl h3.symm
        · rw [if_neg ht] at h3
          exact Or.inr h3.symm
      · have h2 : (none : Option String) = some m := by
          simp only [hft, hb, if_true, Bool.false_eq_true, if_false] at h
          exact h
        exact Option.noConfusion h2
    · have h2 : some (pyOrStr a.t (_get_qualified_name a)) = some m := by
        simp only [hft, if_false] at h
        exact h
      injection h2 with h3
      unfold pyOrStr at h3
      by_cases ht : a.t ≠ ""
      · rw [if_pos ht] at h3
        exact Or.inl h3.symm
      · rw [if_neg ht] at h3
        exact Or.inr h3.symm

/-- C8: a raising resolver is isolated — the fill proceeds exactly as if
that field were absent from the map (same resolved values, same writes,
same unmatched diagnostics), the raising field is reported as a warning
and contributes no value; every other field whose resolver yields a
truthy value and whose name matches a text-typed annotation is written
with that value; and every resolved name matching no template field is
reported in the unmatched set. -/
theorem resolver_error_isolated (tmpl : List PAnnot)
    (fieldMap : List (String × Resolver)) (d : JObj) (f : String) (r : Resolver)
    (hnd : (fieldMap.map Prod.fst).Nodup)
    (hmem : (f, r) ∈ fieldMap)
    (herr : r d = .error ()) :
    (fill_pdf tmpl fieldMap d).fillValues =
      (fill_pdf tmpl (fieldMap.filter (fun p => p.1 ≠ f)) d).fillValues ∧
    (fill_pdf tmpl fieldMap d).output =
      (fill_pdf tmpl (fieldMap.filter (fun p => p.1 ≠ f)) d).output ∧
    (fill_pdf tmpl fieldMap d).unmatched =
      (fill_pdf tmpl (fieldMap.filter (fun p => p.1 ≠ f)) d).unmatched ∧
    dGet (fill_pdf tmpl fieldMap d).fillValues f = none ∧
    f ∈ (fill_pdf tmpl fieldMap d).resolveErrors ∧
    (∀ n, n ∈ (fill_pdf tmpl fieldMap d).fillValues.map Prod.fst →
      (∀ a ∈ tmpl, a.t ≠ n ∧ _get_qualified_name a ≠ n) →
      n ∈ (fill_pdf tmpl fieldMap d).unmatched) ∧
    (∀ a ∈ tmpl, ∀ g rg v, (g, rg) ∈ fieldMap → a.t = g →
      rg d = .ok v → truthy v = true → _get_field_type a ≠ "/Btn" →
      ∃ os, (fill_pdf tmpl fieldMap d).output = some os ∧
        (a, some (.text (pyStr v))) ∈ os) := by
  have hkeyerr : ∀ p ∈ fieldMap, p.1 = f → p.2 d = .error () := by
    intro p hp hpf
    obtain ⟨n, rr⟩ := p
    subst hpf
    rw [resolver_key_unique fieldMap n rr r hnd hp hmem]
    exact herr
  have hfv : (resolveAll fieldMap d).1 =
      (resolveAll (fieldMap.filter (fun p => p.1 ≠ f)) d).1 :=
    resolveAllAux_fst_filter_err d [] [] [] fieldMap f hkeyerr
  refine ⟨?_, ?_, ?_, ?_, ?_, ?_, ?_⟩
  · rw [fill_pdf_fillValues, fill_pdf_fillValues, hfv]
  · simp only [fill_pdf]
    rw [hfv]
    by_cases he : (resolveAll (fieldMap.filter fun p => p.1 ≠ f) d).1.isEmpty = true
    · rw [if_pos he, if_pos he]
    · rw [if_neg he, if_neg he]
  · simp only [fill_pdf]
    rw [hfv]
    by_cases he : (resolveAll (fieldMap.filter fun p => p.1 ≠ f) d).1.isEmpty = true
    · rw [if_pos he, if_pos he]
    · rw [if_neg he, if_neg he]
  · rw [fill_pdf_fillValues]
    exact resolveAllAux_dGet_err d [] [] fieldMap f hkeyerr
  · rw [fill_pdf_resolveErrors]
    exact resolveAllAux_err_mem d [] [] fieldMap f r hmem herr
  · intro n hn hnomatch
    rw [fill_pdf_fillValues] at hn
    have hne : (resolveAll fieldMap d).1.isEmpty = false := by
      rcases List.mem_map.mp hn with ⟨p, hp, hp2⟩
      cases hl : (resolveAll fieldMap d).1 with
      | nil => rw [hl] at hp; exact absurd hp (List.not_mem_nil _)
      | cons a rest => rfl
    unfold fill_pdf
    simp only [hne, Bool.false_eq_true, if_false]
    refine List.mem_filter.mpr ⟨hn, ?_⟩
    simp only [Bool.not_eq_true']
    rw [List.contains_eq_any_beq]
    simp only [List.any_eq_false]
    intro m hm
    rcases List.mem_filterMap.mp hm with ⟨q, hq, hq2⟩
    rcases List.mem_map.mp hq with ⟨a, ha, ha2⟩
    have : (annotAction (resolveAll fieldMap d).1 a).2 = some m := by
      rw [← ha2] at hq2
      exact hq2
    rcases annotAction_matched_name _ _ _ this with hm2 | hm2
    · subst hm2
      simp only [beq_iff_eq]
      exact fun he => (hnomatch a ha).1 he.symm
    · subst hm2
      simp only [beq_iff_eq]
      exact fun he => (hnomatch a ha).2 he.symm
  · intro a ha g rg v hgmem hat hok htr hft
    have hg : dGet (resolveAll fieldMap d).1 g = some v :=
      resolveAllAux_dGet_ok d [] [] fieldMap g rg v hnd hgmem hok
        (truthy_not_skip v htr)
    have hne : (resolveAll fieldMap d).1.isEmpty = false := by
      cases hl : (resolveAll fieldMap d).1 with
      | nil => rw [hl] at hg; exact Option.noConfusion hg
      | cons x rest => rfl
    have hact : annotAction (resolveAll fieldMap d).1 a =
        (some (.text (pyStr v)), some (pyOrStr a.t (_get_qualified_name a))) := by
      unfold annotAction annotLookup
      rw [hat, hg]
      simp only [truthyO, htr, if_true, hg]
      simp only [hft, if_false]
    refine ⟨(tmpl.map (fun a => (a, annotAction (resolveAll fieldMap d).1 a))).map
      (fun p => (p.1, p.2.1)), ?_, ?_⟩
    · unfold fill_pdf
      simp only [hne, Bool.false_eq_true, if_false]
    · have h1 : (a, annotAction (resolveAll fieldMap d).1 a) ∈
          tmpl.map (fun a => (a, annotAction (resolveAll fieldMap d).1 a)) :=
        List.mem_map_of_mem _ ha
      have h2 := List.mem_map_of_mem (fun p => (p.1, p.2.1)) h1
      rw [hact] at h2
      exact h2

/-- C8 witness: `resolver_error_isolated` discharged at a concrete
template and field map (the raising `BAD` resolver next to the healthy
`A` resolver). -/
theorem resolver_error_isolated_witness :
    dGet (fill_pdf c8Tmpl c8Map []).fillValues "BAD" = none ∧
    "BAD" ∈ (fill_pdf c8Tmpl c8Map []).resolveErrors :=
  ⟨(resolver_error_isolated c8Tmpl c8Map [] "BAD" (fun _ => .error ())
      (by simp [c8Map]) (by simp [c8Map]) rfl).2.2.2.1,
   (resolver_error_isolated c8Tmpl c8Map [] "BAD" (fun _ => .error ())
      (by simp [c8Map]) (by simp [c8Map]) rfl).2.2.2.2.1⟩

/-- C1 counterexample: the backfill pass succeeds but does not restore a
leaf nested inside the GL `limits` sub-record — the source's
`generalAggregate` (truthy) is absent from the merged result, because
the base's non-empty `limits` dict blocks the wholesale copy and the
`acord25` branch never descends into it. -/
theorem backfill_limits_counterexample :
    (_preserve_fields c1Base [c1Src]).isSome = true ∧
    (_preserve_fields c1Base [c1Src]).bind
      (fun r => getP (.obj r)
        [.key "acord25", .key "gl", .key "limits", .key "generalAggregate"]) =
      none ∧
    getP (.obj c1Src)
      [.key "acord25", .key "gl", .key "limits", .key "generalAggregate"] =
      some (.num 2000000) ∧
    truthy (.num 2000000) = true :=
  ⟨rfl, rfl, rfl, rfl⟩

/-- C6 counterexample: the backfill pass copies `insurerLetter` `B` from
a source whose own letter scheme assigned `B`, while the merged carriers
list only knows letter `A` — the merged document references a letter
with no matching carrier. -/
theorem merged_letter_counterexample :
    (_preserve_fields c6Base [c6Ext]).bind
      (fun r => sectionField r "acord25" "gl" "insurerLetter") =
      some (.str "B") ∧
    (_preserve_fields c6Base [c6Ext]).map carrierLetters = some [.str "A"] ∧
    (_preserve_fields c6Base [c6Ext]).map
      (fun r => (carrierLetters r).any (fun x => JVal.pyEq x (.str "B"))) =
      some false :=
  ⟨rfl, rfl, rfl⟩

/-- C10 counterexample: a key path holding a truthy value (the GL section
dict itself) does not hold the same value after the backfill pass — the
pass adds members to container values, so only scalar values are
preserved verbatim. -/
theorem backfill_overwrite_counterexample :
    getP (.obj c10Base) [.key "acord25", .key "gl"] =
      some (.obj [("policyNumber", .str "GL-1")]) ∧
    truthy (.obj [("policyNumber", .str "GL-1")]) = true ∧
    (_preserve_fields c10Base [c10Ext]).bind
      (fun r => getP (.obj r) [.key "acord25", .key "gl"]) =
      some (.obj [("policyNumber", .str "GL-1"),
        ("effectiveDate", .str "02/02/2025")]) ∧
    (_preserve_fields c10Base [c10Ext]).bind
      (fun r => getP (.obj r) [.key "acord25", .key "gl"]) ≠
      some (.obj [("policyNumber", .str "GL-1")]) := by
  refine ⟨rfl, rfl, rfl, ?_⟩
  intro h
  rw [show (_preserve_fields c10Base [c10Ext]).bind
      (fun r => getP (.obj r) [.key "acord25", .key "gl"]) =
      some (.obj [("policyNumber", .str "GL-1"),
        ("effectiveDate", .str "02/02/2025")]) from rfl] at h
  injection h with h2
  injection h2 with h3
  have := congrArg List.length h3
  simp at this

/-! ### Backfill lemmas -/

/-- The backfill inner loop never touches a slot that is already
truthy. -/
theorem backfillDict_truthy_pres (src : JObj) (m : JObj) (f : String)
    (h : truthyO (dGet m f) = true) :
    dGet (backfillDict m src) f = dGet m f := by
  induction src generalizing m with
  | nil => rfl
  | cons p rest ih =>
    obtain ⟨g, w⟩ := p
    simp only [backfillDict]
    by_cases hg : g = f
    · subst hg
      rw [h]
      simp only [Bool.not_true, Bool.and_false, Bool.false_eq_true, if_false]
      exact ih m h
    · by_cases hc : (truthy w && !truthyO (dGet m g)) = true
      · rw [if_pos hc]
        have h2 : dGet (dSet m g w) f = dGet m f :=
          dGet_dSet_ne m g f w (fun he => hg he.symm)
        rw [ih _ (by rw [h2]; exact h), h2]
      · rw [if_neg hc]
        exact ih m h

/-- A truthy slot stays truthy across the backfill inner loop. -/
theorem backfillDict_mono (src : JObj) (m : JObj) (f : String)
    (h : truthyO (dGet m f) = true) :
    truthyO (dGet (backfillDict m src) f) = true := by
  rw [backfillDict_truthy_pres src m f h]
  exact h

/-- A truthy source entry makes the slot truthy after the backfill inner
loop. -/
theorem backfillDict_establish (src : JObj) (m : JObj) (f : String) (v : JVal)
    (hf : dGet src f = some v) (hv : truthy v = true) :
    truthyO (dGet (backfillDict m src) f) = true := by
  induction src generalizing m with
  | nil => exact absurd hf (by simp [dGet])
  | cons p rest ih =>
    obtain ⟨g, w⟩ := p
    simp only [backfillDict]
    by_cases hg : g = f
    · subst hg
      have hw : w = v := by
        simpa [dGet] using hf
      subst hw
      by_cases hm : truthyO (dGet m g) = true
      · rw [hm]
        simp only [Bool.not_true, Bool.and_false, Bool.false_eq_true, if_false]
        exact backfillDict_mono rest m g hm
      · have hm2 : truthyO (dGet m g) = false := by
          exact Bool.not_eq_true _ ▸ Bool.of_not_eq_true hm
        rw [hm2]
        simp only [hv, Bool.not_false, Bool.and_true, Bool.and_self, if_true]
        exact backfillDict_mono rest _ g (by rw [dGet_dSet_self]; exact hv)
    · have hf2 : dGet rest f = some v := by
        simpa [dGet, hg] using hf
      by_cases hc : (truthy w && !truthyO (dGet m g)) = true
      · rw [if_pos hc]
        exact ih _ hf2
      · rw [if_neg hc]
        exact ih _ hf2

/-- Every slot of the backfilled dict either keeps the merged value or
comes from some source entry with that key. -/
theorem backfillDict_origin (src : JObj) (m : JObj) (f : String) :
    dGet (backfillDict m src) f = dGet m f ∨
      ∃ w, (f, w) ∈ src ∧ dGet (backfillDict m src) f = some w := by
  induction src generalizing m with
  | nil => exact Or.inl rfl
  | cons p rest ih =>
    obtain ⟨g, w⟩ := p
    simp only [backfillDict]
    by_cases hc : (truthy w && !truthyO (dGet m g)) = true
    · rw [if_pos hc]
      rcases ih (dSet m g w) with h | ⟨w', hw', h⟩
      · by_cases hg : g = f
        · subst hg
          rw [h, dGet_dSet_self]
          exact Or.inr ⟨w, List.mem_cons_self _ _, rfl⟩
        · rw [h, dGet_dSet_ne m g f w (fun he => hg he.symm)]
          exact Or.inl rfl
      · exact Or.inr ⟨w', List.mem_cons_of_mem _ hw', h⟩
    · rw [if_neg hc]
      rcases ih m with h | ⟨w', hw', h⟩
      · exact Or.inl h
      · exact Or.inr ⟨w', List.mem_cons_of_mem _ hw', h⟩

/-- `backfillFromSources` keeps truthy slots truthy. -/
theorem bfs_mono (fk s : String) (exts : List JObj) (ms out : JObj) (f : String)
    (hrun : backfillFromSources fk s ms exts = some out)
    (h : truthyO (dGet ms f) = true) :
    truthyO (dGet out f) = true := by
  induction exts generalizing ms with
  | nil =>
    injection hrun with h2
    rw [← h2]
    exact h
  | cons ext rest ih =>
    simp only [backfillFromSources] at hrun
    cases hsv : sourceSection fk s ext with
    | none => rw [hsv] at hrun; exact Option.noConfusion hrun
    | some sv =>
      rw [hsv] at hrun
      cases sv with
      | obj sf => exact ih _ hrun (backfillDict_mono sf ms f h)
      | null => exact ih _ hrun h
      | bool b => exact ih _ hrun h
      | num q => exact ih _ hrun h
      | str t => exact ih _ hrun h
      | arr xs => exact ih _ hrun h

/-- A truthy field of any source's section dict is truthy in the final
backfilled section. -/
theorem bfs_establish (fk s : String) (exts : List JObj) (ms out : JObj)
    (ext : JObj) (S : JObj) (f : String) (v : JVal)
    (hrun : backfillFromSources fk s ms exts = some out)
    (hext : ext ∈ exts)
    (hsrc : sourceSection fk s ext = some (.obj S))
    (hf : dGet S f = some v) (hv : truthy v = true) :
    truthyO (dGet out f) = true := by
  induction exts generalizing ms with
  | nil => exact absurd hext (List.not_mem_nil _)
  | cons e rest ih =>
    simp only [backfillFromSources] at hrun
    rcases List.mem_cons.mp hext with he | htail
    · subst he
      rw [hsrc] at hrun
      exact bfs_mono fk s rest _ out f hrun
        (backfillDict_establish S ms f v hf hv)
    · cases hsv : sourceSection fk s e with
      | none => rw [hsv] at hrun; exact Option.noConfusion hrun
      | some sv =>
        rw [hsv] at hrun
        cases sv with
        | obj sf => exact ih _ hrun htail
        | null => exact ih _ hrun htail
        | bool b => exact ih _ hrun htail
        | num q => exact ih _ hrun htail
        | str t => exact ih _ hrun htail
        | arr xs => exact ih _ hrun htail

/-- Every slot of the final backfilled section either keeps the merged
value or comes from some source's section entry. -/
theorem bfs_origin (fk s : String) (exts : List JObj) (ms out : JObj)
    (f : String)
    (hrun : backfillFromSources fk s ms exts = some out) :
    dGet out f = dGet ms f ∨
      ∃ ext ∈ exts, ∃ S w, sourceSection fk s ext = some (.obj S) ∧
        (f, w) ∈ S ∧ dGet out f = some w := by
  induction exts generalizing ms with
  | nil =>
    injection hrun with h2
    rw [← h2]
    exact Or.inl rfl
  | cons e rest ih =>
    simp only [backfillFromSources] at hrun
    cases hsv : sourceSection fk s e with
    | none => rw [hsv] at hrun; exact Option.noConfusion hrun
    | some sv =>
      rw [hsv] at hrun
      cases sv with
      | obj sf =>
        rcases ih _ hrun with h | ⟨ext', hext', S, w, hs1, hs2, hs3⟩
        · rcases backfillDict_origin sf ms f with h2 | ⟨w, hw, h2⟩
          · rw [h] at *
            exact Or.inl h2
          · rw [h] at *
            exact Or.inr ⟨e, List.mem_cons_self _ _, sf, w, hsv, hw, h2⟩
        · exact Or.inr ⟨ext', List.mem_cons_of_mem _ hext', S, w, hs1, hs2, hs3⟩
      | null =>
        rcases ih _ hrun with h | ⟨ext', hext', S, w, hs1, hs2, hs3⟩
        · exact Or.inl h
        · exact Or.inr ⟨ext', List.mem_cons_of_mem _ hext', S, w, hs1, hs2, hs3⟩
      | bool b =>
        rcases ih _ hrun with h | ⟨ext', hext', S, w, hs1, hs2, hs3⟩
        · exact Or.inl h
        · exact Or.inr ⟨ext', List.mem_cons_of_mem _ hext', S, w, hs1, hs2, hs3⟩
      | num q =>
        rcases ih _ hrun with h | ⟨ext', hext', S, w, hs1, hs2, hs3⟩
        · exact Or.inl h
        · exact Or.inr ⟨ext', List.mem_cons_of_mem _ hext', S, w, hs1, hs2, hs3⟩
      | str t =>
        rcases ih _ hrun with h | ⟨ext', hext', S, w, hs1, hs2, hs3⟩
        · exact Or.inl h
        · exact Or.inr ⟨ext', List.mem_cons_of_mem _ hext', S, w, hs1, hs2, hs3⟩
      | arr xs =>
        rcases ih _ hrun with h | ⟨ext', hext', S, w, hs1, hs2, hs3⟩
        · exact Or.inl h
        · exact Or.inr ⟨ext', List.mem_cons_of_mem _ hext', S, w, hs1, hs2, hs3⟩

/-! ### Section-stage lemmas -/

/-- A truthy optional value holds a truthy value. -/
theorem truthyO_elim (x : Option JVal) (h : truthyO x = true) :
    ∃ v, x = some v ∧ truthy v = true := by
  cases x with
  | none => exact absurd h (by simp [truthyO])
  | some v => exact ⟨v, rfl, h⟩

/-- A key already bound keeps its value after appending entries. -/
theorem dGet_append_left (o l : JObj) (k : String) (v : JVal)
    (h : dGet o k = some v) : dGet (o ++ l) k = some v := by
  induction o with
  | nil => exact absurd h (by simp [dGet])
  | cons p rest ih =>
    by_cases hp : p.1 = k
    · simp [dGet, hp] at h ⊢
      exact h
    · simp [dGet, hp] at h ⊢
      exact ih h

/-- `d.get(k)` on a bound key. -/
theorem pyGet_of_some (r : JObj) (k : String) (w : JVal)
    (h : dGet r k = some w) : pyGet r k = w := by
  simp [pyGet, dGetD, h]

/-- `d.get(k)` on an unbound key. -/
theorem pyGet_of_none (r : JObj) (k : String) (h : dGet r k = none) :
    pyGet r k = .null := by
  simp [pyGet, dGetD, h]

/-- `d.get(k)` returning a dict means the key is bound to that dict. -/
theorem pyGet_obj_elim (r : JObj) (k : String) (a : JObj)
    (h : pyGet r k = .obj a) : dGet r k = some (.obj a) := by
  cases hd : dGet r k with
  | none => rw [pyGet_of_none r k hd] at h; exact JVal.noConfusion h
  | some w => rw [pyGet_of_some r k w hd] at h; rw [h]

/-- `v or {}` on a dict is the dict itself (the empty dict is falsy, so
the default coincides with it). -/
theorem pyOrEmptyObj_obj (fs : JObj) : pyOrEmptyObj (.obj fs) = .obj fs := by
  cases fs with
  | nil => rfl
  | cons p rest => rfl

/-- The section read through a bound dict form value. -/
theorem sourceSection_of_obj (r : JObj) (fk t : String) (fs : JObj)
    (h : dGet r fk = some (.obj fs)) :
    sourceSection fk t r = some (dGetD fs t (.obj [])) := by
  simp only [sourceSection, pyGet_of_some r fk _ h, pyOrEmptyObj_obj]

/-- The section read through an unbound form key defaults to the empty
dict. -/
theorem sourceSection_of_none (r : JObj) (fk t : String)
    (h : dGet r fk = none) :
    sourceSection fk t r = some (.obj []) := by
  simp only [sourceSection, pyGet_of_none r fk h]
  rfl

/-- Anatomy of a successful `processSection` run: either the merged
section was not a dict and the document is unchanged, or it was
backfilled, and the result is the input unchanged (empty result) or an
explicit store of the backfilled section. -/
theorem processSection_spec (r : JObj) (exts : List JObj) (fk s : String)
    (r' : JObj) (hrun : processSection r exts fk s = some r') :
    (∃ v, sourceSection fk s r = some v ∧ asObj v = none ∧ r' = r) ∨
    ∃ ms0 msF, sourceSection fk s r = some (.obj ms0) ∧
      backfillFromSources fk s ms0 exts = some msF ∧
      ((msF.isEmpty = true ∧ r' = r) ∨
       (msF.isEmpty = false ∧
        ((∃ fs, dGet r fk = some (.obj fs) ∧ dGetD fs s (.obj []) = .obj ms0 ∧
            r' = dSet r fk (.obj (dSet fs s (.obj msF)))) ∨
         (dGet r fk = none ∧ ms0 = [] ∧
            r' = r ++ [(fk, .obj [(s, .obj msF)])])))) := by
  cases hss : sourceSection fk s r with
  | none =>
    simp only [processSection, hss] at hrun
    exact Option.noConfusion hrun
  | some sv =>
    cases sv with
    | obj ms0 =>
      simp only [processSection, hss] at hrun
      cases hbf : backfillFromSources fk s ms0 exts with
      | none =>
        simp only [hbf] at hrun
        exact Option.noConfusion hrun
      | some msF =>
        simp only [hbf] at hrun
        by_cases hemp : msF.isEmpty = true
        · rw [if_pos hemp] at hrun
          injection hrun with h
          exact Or.inr ⟨ms0, msF, rfl, hbf, Or.inl ⟨hemp, h.symm⟩⟩
        · rw [if_neg hemp] at hrun
          have hemp2 : msF.isEmpty = false := by
            cases he : msF.isEmpty
            · rfl
            · exact absurd he hemp
          simp only [setdefaultSet] at hrun
          cases hdg : dGet r fk with
          | none =>
            simp only [hdg] at hrun
            injection hrun with h
            have h0 := sourceSection_of_none r fk s hdg
            rw [hss] at h0
            injection h0 with h0
            have h0b : ms0 = [] := by
              injection h0 with h2
            exact Or.inr ⟨ms0, msF, rfl, hbf,
              Or.inr ⟨hemp2, Or.inr ⟨rfl, h0b, h.symm⟩⟩⟩
          | some w =>
            simp only [hdg] at hrun
            cases w with
            | obj fs =>
              injection hrun with h
              have h0 := sourceSection_of_obj r fk s fs hdg
              rw [hss] at h0
              injection h0 with h0
              exact Or.inr ⟨ms0, msF, rfl, hbf,
                Or.inr ⟨hemp2, Or.inl ⟨fs, rfl, h0.symm, h.symm⟩⟩⟩
            | null => exact Option.noConfusion hrun
            | bool b => exact Option.noConfusion hrun
            | num q => exact Option.noConfusion hrun
            | str t2 => exact Option.noConfusion hrun
            | arr xs => exact Option.noConfusion hrun
    | null =>
      simp only [processSection, hss] at hrun
      injection hrun with h
      exact Or.inl ⟨.null, rfl, rfl, h.symm⟩
    | bool b =>
      simp only [processSection, hss] at hrun
      injection hrun with h
      exact Or.inl ⟨.bool b, rfl, rfl, h.symm⟩
    | num q =>
      simp only [processSection, hss] at hrun
      injection hrun with h
      exact Or.inl ⟨.num q, rfl, rfl, h.symm⟩
    | str t2 =>
      simp only [processSection, hss] at hrun
      injection hrun with h
      exact Or.inl ⟨.str t2, rfl, rfl, h.symm⟩
    | arr xs =>
      simp only [processSection, hss] at hrun
      injection hrun with h
      exact Or.inl ⟨.arr xs, rfl, rfl, h.symm⟩

/-- A section pass leaves every other form key untouched. -/
theorem ps_dGet_ne (r : JObj) (exts : List JObj) (fk s : String) (r' : JObj)
    (k : String) (hrun : processSection r exts fk s = some r') (hk : k ≠ fk) :
    dGet r' k = dGet r k := by
  rcases processSection_spec r exts fk s r' hrun with ⟨v, _, _, he⟩ |
    ⟨ms0, msF, hss, hbf, ⟨_, he⟩ | ⟨_, ⟨fs, hdg, _, he⟩ | ⟨hdg, _, he⟩⟩⟩
  · rw [he]
  · rw [he]
  · rw [he]
    exact dGet_dSet_ne r fk k _ hk
  · rw [he]
    exact dGet_append_single r k fk _ hk

/-- The section read through a non-dict form value: `none` (an
`AttributeError` in the source) when truthy, the empty-dict default when
falsy. -/
theorem sourceSection_of_scalar (r : JObj) (fk s : String) (w : JVal)
    (hdg : dGet r fk = some w) (hw : asObj w = none) :
    sourceSection fk s r = if truthy w then none else some (.obj []) := by
  simp only [sourceSection, pyGet_of_some r fk _ hdg, pyOrEmptyObj]
  by_cases ht : truthy w = true
  · rw [if_pos ht, if_pos ht]
    cases w with
    | obj fs => exact absurd hw (by simp [asObj])
    | null => rfl
    | bool b => rfl
    | num q => rfl
    | str t2 => rfl
    | arr xs => rfl
  · rw [if_neg ht, if_neg ht]
    rfl

/-- A non-dict form value yields no section field. -/
theorem sectionField_scalar (r : JObj) (fk s f : String) (w : JVal)
    (hdg : dGet r fk = some w) (hw : asObj w = none) :
    sectionField r fk s f = none := by
  simp only [sectionField, pyGet_of_some r fk _ hdg]
  cases w with
  | obj fs => exact absurd hw (by simp [asObj])
  | null => rfl
  | bool b => rfl
  | num q => rfl
  | str t2 => rfl
  | arr xs => rfl

/-- An unbound form key yields no section field. -/
theorem sectionField_of_get_none (r : JObj) (fk s f : String)
    (h : dGet r fk = none) : sectionField r fk s f = none := by
  simp [sectionField, pyGet_of_none r fk h]

/-- The section field reader agrees with lookup in the dict produced by
a successful section read. -/
theorem sectionField_of_sourceSection (r : JObj) (fk s f : String) (M : JObj)
    (h : sourceSection fk s r = some (.obj M)) :
    sectionField r fk s f = dGet M f := by
  cases hdg : dGet r fk with
  | none =>
    have h2 := sourceSection_of_none r fk s hdg
    rw [h] at h2
    have h3 := Option.some.inj h2
    have hM : M = [] := by injection h3
    subst hM
    simp [sectionField, pyGet_of_none r fk hdg, dGet]
  | some w =>
    cases w with
    | obj a =>
      have h2 := sourceSection_of_obj r fk s a hdg
      rw [h] at h2
      have h3 := Option.some.inj h2
      simp only [sectionField, pyGet_of_some r fk _ hdg]
      cases hda : dGet a s with
      | none =>
        have h4 : dGetD a s (.obj []) = .obj [] := by simp [dGetD, hda]
        rw [h4] at h3
        have hM : M = [] := by injection h3
        subst hM
        rfl
      | some u =>
        have h4 : dGetD a s (.obj []) = u := by simp [dGetD, hda]
        rw [h4] at h3
        cases u with
        | obj m =>
          have hM : M = m := by injection h3
          subst hM
          rfl
        | null => exact JVal.noConfusion h3
        | bool b => exact JVal.noConfusion h3
        | num q => exact JVal.noConfusion h3
        | str t2 => exact JVal.noConfusion h3
        | arr xs => exact JVal.noConfusion h3
    | null =>
      have h2 := sourceSection_of_scalar r fk s .null hdg rfl
      rw [h, if_neg (by simp [truthy])] at h2
      have h3 := Option.some.inj h2
      have hM : M = [] := by injection h3
      subst hM
      rw [sectionField_scalar r fk s f .null hdg rfl]
      rfl
    | bool b =>
      have h2 := sourceSection_of_scalar r fk s (.bool b) hdg rfl
      by_cases ht : truthy (.bool b) = true
      · rw [h, if_pos ht] at h2
        exact Option.noConfusion h2
      · rw [h, if_neg ht] at h2
        have h3 := Option.some.inj h2
        have hM : M = [] := by injection h3
        subst hM
        rw [sectionField_scalar r fk s f (.bool b) hdg rfl]
        rfl
    | num q =>
      have h2 := sourceSection_of_scalar r fk s (.num q) hdg rfl
      by_cases ht : truthy (.num q) = true
      · rw [h, if_pos ht] at h2
        exact Option.noConfusion h2
      · rw [h, if_neg ht] at h2
        have h3 := Option.some.inj h2
        have hM : M = [] := by injection h3
        subst hM
        rw [sectionField_scalar r fk s f (.num q) hdg rfl]
        rfl
    | str t2 =>
      have h2 := sourceSection_of_scalar r fk s (.str t2) hdg rfl
      by_cases ht : truthy (.str t2) = true
      · rw [h, if_pos ht] at h2
        exact Option.noConfusion h2
      · rw [h, if_neg ht] at h2
        have h3 := Option.some.inj h2
        have hM : M = [] := by injection h3
        subst hM
        rw [sectionField_scalar r fk s f (.str t2) hdg rfl]
        rfl
    | arr xs =>
      have h2 := sourceSection_of_scalar r fk s (.arr xs) hdg rfl
      by_cases ht : truthy (.arr xs) = true
      · rw [h, if_pos ht] at h2
        exact Option.noConfusion h2
      · rw [h, if_neg ht] at h2
        have h3 := Option.some.inj h2
        have hM : M = [] := by injection h3
        subst hM
        rw [sectionField_scalar r fk s f (.arr xs) hdg rfl]
        rfl

/-- Inversion: a successful section field read pins down the dict chain
inside the document. -/
theorem sectionField_elim (r : JObj) (fk s f : String) (v : JVal)
    (h : sectionField r fk s f = some v) :
    ∃ a m, dGet r fk = some (.obj a) ∧ dGet a s = some (.obj m) ∧
      dGet m f = some v := by
  cases hdg : dGet r fk with
  | none =>
    rw [sectionField_of_get_none r fk s f hdg] at h
    exact Option.noConfusion h
  | some w =>
    cases w with
    | obj a =>
      simp only [sectionField, pyGet_of_some r fk _ hdg] at h
      cases hda : dGet a s with
      | none =>
        rw [hda] at h
        exact Option.noConfusion h
      | some u =>
        rw [hda] at h
        cases u with
        | obj m => exact ⟨a, m, rfl, hda, h⟩
        | null => exact Option.noConfusion h
        | bool b => exact Option.noConfusion h
        | num q => exact Option.noConfusion h
        | str t2 => exact Option.noConfusion h
        | arr xs => exact Option.noConfusion h
    | null =>
      rw [sectionField_scalar r fk s f _ hdg rfl] at h
      exact Option.noConfusion h
    | bool b =>
      rw [sectionField_scalar r fk s f _ hdg rfl] at h
      exact Option.noConfusion h
    | num q =>
      rw [sectionField_scalar r fk s f _ hdg rfl] at h
      exact Option.noConfusion h
    | str t2 =>
      rw [sectionField_scalar r fk s f _ hdg rfl] at h
      exact Option.noConfusion h
    | arr xs =>
      rw [sectionField_scalar r fk s f _ hdg rfl] at h
      exact Option.noConfusion h

/-- Processing a section through a dict-shaped merged section establishes
every field a source's section dict holds with a truthy value. -/
theorem ps_establish (r : JObj) (exts : List JObj) (fk s : String) (r' : JObj)
    (M : JObj) (ext : JObj) (S : JObj) (f : String) (v : JVal)
    (hrun : processSection r exts fk s = some r')
    (hM : sourceSection fk s r = some (.obj M))
    (hext : ext ∈ exts)
    (hsrc : sourceSection fk s ext = some (.obj S))
    (hf : dGet S f = some v) (hv : truthy v = true) :
    truthyO (sectionField r' fk s f) = true := by
  rcases processSection_spec r exts fk s r' hrun with ⟨w, hw1, hw2, he⟩ |
    ⟨ms0, msF, hss, hbf, ⟨hemp, he⟩ | ⟨hemp, ⟨fs, hdg, hms, he⟩ | ⟨hdg, hms, he⟩⟩⟩
  · rw [hM] at hw1
    have h2 := Option.some.inj hw1
    rw [← h2] at hw2
    exact absurd hw2 (by simp [asObj])
  all_goals (
    rw [hM] at hss
    have h3 := Option.some.inj hss
    have hms0 : M = ms0 := by injection h3
    subst hms0)
  all_goals (
    have htr := bfs_establish fk s exts M msF ext S f v hbf hext hsrc hf hv)
  · rcases truthyO_elim _ htr with ⟨u, hu, _⟩
    have hne := dGet_some_ne_nil msF f u hu
    cases msF with
    | nil => exact absurd rfl hne
    | cons p rest => simp [List.isEmpty] at hemp
  · subst he
    have hd2 : dGet (dSet r fk (.obj (dSet fs s (.obj msF)))) fk =
        some (.obj (dSet fs s (.obj msF))) := dGet_dSet_self r fk _
    have hsf : sectionField (dSet r fk (.obj (dSet fs s (.obj msF)))) fk s f =
        dGet msF f := by
      simp only [sectionField, pyGet_of_some _ fk _ hd2, dGet_dSet_self]
    rw [hsf]
    exact htr
  · subst he
    have hd2 : dGet (r ++ [(fk, JVal.obj [(s, JVal.obj msF)])]) fk =
        some (.obj [(s, .obj msF)]) := dGet_append_single_self r fk _ hdg
    have hsf : sectionField (r ++ [(fk, JVal.obj [(s, JVal.obj msF)])]) fk s f =
        dGet msF f := by
      simp [sectionField, pyGet_of_some _ fk _ hd2, dGet]
    rw [hsf]
    exact htr

/-- A truthy section field survives any section pass (over the same or
another section). -/
theorem ps_field_pres (r : JObj) (exts : List JObj) (fk s t f : String)
    (r' : JObj)
    (hrun : processSection r exts fk s = some r')
    (h : truthyO (sectionField r fk t f) = true) :
    truthyO (sectionField r' fk t f) = true := by
  rcases truthyO_elim _ h with ⟨v, hv, hvt⟩
  rcases sectionField_elim r fk t f v hv with ⟨a, m, hra, ham, hmf⟩
  rcases processSection_spec r exts fk s r' hrun with ⟨w, hw1, hw2, he⟩ |
    ⟨ms0, msF, hss, hbf, ⟨hemp, he⟩ | ⟨hemp, ⟨fs, hdg, hms, he⟩ | ⟨hdg, hms, he⟩⟩⟩
  · subst he
    exact h
  · subst he
    exact h
  · have h2 : JVal.obj a = JVal.obj fs := by
      rw [hra] at hdg
      exact Option.some.inj hdg
    have hfa : a = fs := by injection h2
    subst hfa
    subst he
    by_cases hts : t = s
    · subst hts
      have hm0 : ms0 = m := by
        have h3 : dGetD a t (.obj []) = .obj m := by simp [dGetD, ham]
        rw [h3] at hms
        have h4 : m = ms0 := by injection hms
        exact h4.symm
      subst hm0
      have hd2 : dGet (dSet r fk (.obj (dSet a t (.obj msF)))) fk =
          some (.obj (dSet a t (.obj msF))) := dGet_dSet_self r fk _
      have hsf : sectionField (dSet r fk (.obj (dSet a t (.obj msF)))) fk t f =
          dGet msF f := by
        simp only [sectionField, pyGet_of_some _ fk _ hd2, dGet_dSet_self]
      rw [hsf]
      exact bfs_mono fk t exts ms0 msF f hbf (by rw [hmf]; exact hvt)
    · have hd2 : dGet (dSet r fk (.obj (dSet a s (.obj msF)))) fk =
          some (.obj (dSet a s (.obj msF))) := dGet_dSet_self r fk _
      have hsf : sectionField (dSet r fk (.obj (dSet a s (.obj msF)))) fk t f =
          sectionField r fk t f := by
        simp only [sectionField, pyGet_of_some _ fk _ hd2,
          pyGet_of_some _ fk _ hra, dGet_dSet_ne a s t _ hts]
      rw [hsf]
      exact h
  · rw [hra] at hdg
    exact Option.noConfusion hdg

/-- Origin of a section field after one section pass: the value slot is
unchanged, or it was written from some source's section dict. -/
theorem ps_origin (r : JObj) (exts : List JObj) (fk s t f : String)
    (r' : JObj) (M M2 : JObj)
    (hrun : processSection r exts fk s = some r')
    (hM : sourceSection fk t r = some (.obj M))
    (hM2 : sourceSection fk t r' = some (.obj M2)) :
    dGet M2 f = dGet M f ∨
      ∃ ext ∈ exts, ∃ S w, sourceSection fk t ext = some (.obj S) ∧
        (f, w) ∈ S ∧ dGet M2 f = some w := by
  rcases processSection_spec r exts fk s r' hrun with ⟨w0, hw1, hw2, he⟩ |
    ⟨ms0, msF, hss, hbf, ⟨hemp, he⟩ | ⟨hemp, ⟨fs, hdg, hms, he⟩ | ⟨hdg, hms, he⟩⟩⟩
  · subst he
    rw [hM] at hM2
    have h2 : M = M2 := by injection Option.some.inj hM2
    rw [h2]
    exact Or.inl rfl
  · subst he
    rw [hM] at hM2
    have h2 : M = M2 := by injection Option.some.inj hM2
    rw [h2]
    exact Or.inl rfl
  · subst he
    by_cases hts : t = s
    · subst hts
      rw [hM] at hss
      have hMm : M = ms0 := by injection Option.some.inj hss
      subst hMm
      have hd2 : dGet (dSet r fk (.obj (dSet fs t (.obj msF)))) fk =
          some (.obj (dSet fs t (.obj msF))) := dGet_dSet_self r fk _
      have h4 := sourceSection_of_obj _ fk t _ hd2
      rw [hM2] at h4
      have h5 := Option.some.inj h4
      have h6 : dGetD (dSet fs t (.obj msF)) t (.obj []) = .obj msF := by
        simp [dGetD, dGet_dSet_self]
      rw [h6] at h5
      have hM2m : M2 = msF := by injection h5
      subst hM2m
      rcases bfs_origin fk t exts M M2 f hbf with h7 | ⟨ext, hext, S, w, ha, hb, hc⟩
      · exact Or.inl h7
      · exact Or.inr ⟨ext, hext, S, w, ha, hb, hc⟩
    · have hd2 : dGet (dSet r fk (.obj (dSet fs s (.obj msF)))) fk =
          some (.obj (dSet fs s (.obj msF))) := dGet_dSet_self r fk _
      have h4 := sourceSection_of_obj _ fk t _ hd2
      rw [hM2] at h4
      have h5 := Option.some.inj h4
      have h6 : dGetD (dSet fs s (.obj msF)) t (.obj []) = dGetD fs t (.obj []) := by
        simp only [dGetD, dGet_dSet_ne fs s t _ hts]
      rw [h6] at h5
      have h7 := sourceSection_of_obj r fk t fs hdg
      rw [hM] at h7
      have h8 := Option.some.inj h7
      rw [← h8] at h5
      have h9 : M2 = M := by injection h5
      rw [h9]
      exact Or.inl rfl
  · subst he
    by_cases hts : t = s
    · subst hts
      subst hms
      rw [hM] at hss
      have hM0 : M = [] := by injection Option.some.inj hss
      subst hM0
      have hd2 : dGet (r ++ [(fk, JVal.obj [(t, JVal.obj msF)])]) fk =
          some (.obj [(t, .obj msF)]) := dGet_append_single_self r fk _ hdg
      have h4 := sourceSection_of_obj _ fk t _ hd2
      rw [hM2] at h4
      have h5 := Option.some.inj h4
      have h6 : dGetD [(t, JVal.obj msF)] t (.obj []) = .obj msF := by
        simp [dGetD, dGet]
      rw [h6] at h5
      have hM2m : M2 = msF := by injection h5
      subst hM2m
      rcases bfs_origin fk t exts [] M2 f hbf with h7 | ⟨ext, hext, S, w, ha, hb, hc⟩
      · exact Or.inl h7
      · exact Or.inr ⟨ext, hext, S, w, ha, hb, hc⟩
    · have hd2 : dGet (r ++ [(fk, JVal.obj [(s, JVal.obj msF)])]) fk =
          some (.obj [(s, .obj msF)]) := dGet_append_single_self r fk _ hdg
      have h4 := sourceSection_of_obj _ fk t _ hd2
      rw [hM2] at h4
      have h5 := Option.some.inj h4
      have h6 : dGetD [(s, JVal.obj msF)] t (.obj []) = .obj [] := by
        have hst : ¬ s = t := fun h => hts h.symm
        simp [dGetD, dGet, hst]
      rw [h6] at h5
      have hM2e : M2 = [] := by injection h5
      have h7 := sourceSection_of_none r fk t hdg
      rw [hM] at h7
      have h8 := Option.some.inj h7
      have hMe : M = [] := by injection h8
      rw [hM2e, hMe]
      exact Or.inl rfl

/-- A section pass keeps every section of the form dict-shaped. -/
theorem ps_shape_pres (r : JObj) (exts : List JObj) (fk s t : String)
    (r' : JObj) (M : JObj)
    (hrun : processSection r exts fk s = some r')
    (hM : sourceSection fk t r = some (.obj M)) :
    ∃ M2, sourceSection fk t r' = some (.obj M2) := by
  rcases processSection_spec r exts fk s r' hrun with ⟨v, hw1, hw2, he⟩ |
    ⟨ms0, msF, hss, hbf, ⟨hemp, he⟩ | ⟨hemp, ⟨fs, hdg, hms, he⟩ | ⟨hdg, hms, he⟩⟩⟩
  · subst he
    exact ⟨M, hM⟩
  · subst he
    exact ⟨M, hM⟩
  · subst he
    have hd2 : dGet (dSet r fk (.obj (dSet fs s (.obj msF)))) fk =
        some (.obj (dSet fs s (.obj msF))) := dGet_dSet_self r fk _
    rw [sourceSection_of_obj _ fk t _ hd2]
    by_cases hts : t = s
    · subst hts
      refine ⟨msF, ?_⟩
      simp [dGetD, dGet_dSet_self]
    · have h6 : dGetD (dSet fs s (.obj msF)) t (.obj []) = dGetD fs t (.obj []) := by
        simp only [dGetD, dGet_dSet_ne fs s t _ hts]
      rw [h6]
      have h7 := sourceSection_of_obj r fk t fs hdg
      rw [hM] at h7
      have h8 := Option.some.inj h7
      exact ⟨M, by rw [← h8]⟩
  · subst he
    have hd2 : dGet (r ++ [(fk, JVal.obj [(s, JVal.obj msF)])]) fk =
        some (.obj [(s, .obj msF)]) := dGet_append_single_self r fk _ hdg
    rw [sourceSection_of_obj _ fk t _ hd2]
    by_cases hts : t = s
    · subst hts
      exact ⟨msF, by simp [dGetD, dGet]⟩
    · refine ⟨[], ?_⟩
      have hst : ¬ s = t := fun h => hts h.symm
      simp [dGetD, dGet, hst]

/-- The whole sectioned pass leaves other form keys untouched. -/
theorem pss_dGet_ne (exts : List JObj) (fk k : String) (hk : k ≠ fk)
    (L : List String) (r r' : JObj)
    (hrun : processSections r exts fk L = some r') :
    dGet r' k = dGet r k := by
  induction L generalizing r with
  | nil =>
    injection hrun with h
    rw [← h]
  | cons s rest ih =>
    simp only [processSections] at hrun
    cases hps : processSection r exts fk s with
    | none =>
      rw [hps] at hrun
      exact Option.noConfusion hrun
    | some r2 =>
      rw [hps] at hrun
      exact (ih r2 hrun).trans (ps_dGet_ne r exts fk s r2 k hps hk)

/-- A truthy section field survives the whole sectioned pass. -/
theorem pss_field_pres (exts : List JObj) (fk t f : String) (L : List String)
    (r r' : JObj)
    (hrun : processSections r exts fk L = some r')
    (h : truthyO (sectionField r fk t f) = true) :
    truthyO (sectionField r' fk t f) = true := by
  induction L generalizing r with
  | nil =>
    injection hrun with h2
    rw [← h2]
    exact h
  | cons s rest ih =>
    simp only [processSections] at hrun
    cases hps : processSection r exts fk s with
    | none =>
      rw [hps] at hrun
      exact Option.noConfusion hrun
    | some r2 =>
      rw [hps] at hrun
      exact ih r2 hrun (ps_field_pres r exts fk s t f r2 hps h)

/-- The sectioned pass keeps every section of the form dict-shaped. -/
theorem pss_shape_pres (exts : List JObj) (fk t : String) (L : List String)
    (r r' : JObj) (M : JObj)
    (hrun : processSections r exts fk L = some r')
    (hM : sourceSection fk t r = some (.obj M)) :
    ∃ M2, sourceSection fk t r' = some (.obj M2) := by
  induction L generalizing r M with
  | nil =>
    injection hrun with h
    exact ⟨M, h ▸ hM⟩
  | cons s rest ih =>
    simp only [processSections] at hrun
    cases hps : processSection r exts fk s with
    | none =>
      rw [hps] at hrun
      exact Option.noConfusion hrun
    | some r2 =>
      rw [hps] at hrun
      rcases ps_shape_pres r exts fk s t r2 M hps hM with ⟨M2, hM2⟩
      exact ih r2 M2 hrun hM2

/-- Processing a list of sections containing `s` establishes every field
a source's `s`-section dict holds with a truthy value, provided the
merged `s` section is dict-shaped. -/
theorem pss_establish (exts : List JObj) (fk s : String) (L : List String)
    (r r' : JObj) (M : JObj) (ext : JObj) (S : JObj) (f : String) (v : JVal)
    (hrun : processSections r exts fk L = some r')
    (hsL : s ∈ L)
    (hM : sourceSection fk s r = some (.obj M))
    (hext : ext ∈ exts)
    (hsrc : sourceSection fk s ext = some (.obj S))
    (hf : dGet S f = some v) (hv : truthy v = true) :
    truthyO (sectionField r' fk s f) = true := by
  induction L generalizing r M with
  | nil => exact absurd hsL (List.not_mem_nil _)
  | cons s2 rest ih =>
    simp only [processSections] at hrun
    cases hps : processSection r exts fk s2 with
    | none =>
      rw [hps] at hrun
      exact Option.noConfusion hrun
    | some r2 =>
      rw [hps] at hrun
      rcases List.mem_cons.mp hsL with he | htail
      · subst he
        exact pss_field_pres exts fk s f rest r2 r' hrun
          (ps_establish r exts fk s r2 M ext S f v hps hM hext hsrc hf hv)
      · rcases ps_shape_pres r exts fk s2 s r2 M hps hM with ⟨M2, hM2⟩
        exact ih r2 M2 hrun htail hM2

/-- Origin of a section field across the whole sectioned pass. -/
theorem pss_origin (exts : List JObj) (fk t f : String) (L : List String)
    (r r' : JObj) (M M2 : JObj)
    (hrun : processSections r exts fk L = some r')
    (hM : sourceSection fk t r = some (.obj M))
    (hM2 : sourceSection fk t r' = some (.obj M2)) :
    dGet M2 f = dGet M f ∨
      ∃ ext ∈ exts, ∃ S w, sourceSection fk t ext = some (.obj S) ∧
        (f, w) ∈ S ∧ dGet M2 f = some w := by
  induction L generalizing r M with
  | nil =>
    injection hrun with h2
    subst h2
    rw [hM] at hM2
    have h3 : M = M2 := by injection Option.some.inj hM2
    rw [h3]
    exact Or.inl rfl
  | cons s rest ih =>
    simp only [processSections] at hrun
    cases hps : processSection r exts fk s with
    | none =>
      rw [hps] at hrun
      exact Option.noConfusion hrun
    | some r2 =>
      rw [hps] at hrun
      rcases ps_shape_pres r exts fk s t r2 M hps hM with ⟨Mm, hMm⟩
      rcases ih r2 Mm hrun hMm with h4 | ⟨ext, hext, S, w, ha, hb, hc⟩
      · rcases ps_origin r exts fk s t f r2 M Mm hps hM hMm with h5 |
          ⟨ext, hext, S, w, ha, hb, hc⟩
        · exact Or.inl (h4.trans h5)
        · exact Or.inr ⟨ext, hext, S, w, ha, hb, h4.trans hc⟩
      · exact Or.inr ⟨ext, hext, S, w, ha, hb, hc⟩

/-- The sectionless (else) branch leaves other form keys untouched. -/
theorem pfe_dGet_ne (r : JObj) (exts : List JObj) (fk k : String)
    (hk : k ≠ fk) : dGet (processFormElse r exts fk) k = dGet r k := by
  cases hp : pyOrEmptyObj (pyGet r fk) with
  | obj mf0 =>
    simp only [processFormElse, hp]
    cases hee : elseExts fk mf0 false exts with
    | mk mfF assigned =>
      cases assigned with
      | true => exact dGet_dSet_ne r fk k _ hk
      | false => rfl
  | null => simp only [processFormElse, hp]
  | bool b => simp only [processFormElse, hp]
  | num q => simp only [processFormElse, hp]
  | str t2 => simp only [processFormElse, hp]
  | arr xs => simp only [processFormElse, hp]

/-- The top-level-keys pass leaves other keys untouched. -/
theorem pt_dGet_ne (r : JObj) (exts : List JObj) (tk k : String)
    (hk : k ≠ tk) : dGet (processTop r exts tk) k = dGet r k := by
  simp only [processTop]
  cases hp : dGetD r tk (.obj []) with
  | obj mt0 => exact dGet_dSet_ne r tk k _ hk
  | null => rfl
  | bool b => rfl
  | num q => rfl
  | str t2 => rfl
  | arr xs => rfl

/-- One carrier step touches only the `carriers` key. -/
theorem cstep_dGet_ne (r : JObj) (c : JVal) (r' : JObj) (k : String)
    (hrun : carrierStep r c = some r') (hk : k ≠ "carriers") :
    dGet r' k = dGet r k := by
  cases c with
  | obj cF =>
    simp only [carrierStep] at hrun
    by_cases ht : truthy (dGetD cF "name" (.str "")) = true
    · rw [if_pos ht] at hrun
      cases hpi : pyIterL (dGetD r "carriers" (.arr [])) with
      | none =>
        rw [hpi] at hrun
        exact Option.noConfusion hrun
      | some xs =>
        simp only [hpi] at hrun
        cases hcs : carrierScan xs (dGetD cF "name" (.str "")) with
        | none =>
          rw [hcs] at hrun
          exact Option.noConfusion hrun
        | some op =>
          simp only [hcs] at hrun
          cases op with
          | none =>
            injection hrun with h
            rw [← h]
          | some pr =>
            cases pr with
            | mk i exF =>
              injection hrun with h
              rw [← h]
              exact dGet_dSet_ne r "carriers" k _ hk
    · rw [if_neg ht] at hrun
      injection hrun with h
      rw [← h]
  | null => exact Option.noConfusion hrun
  | bool b => exact Option.noConfusion hrun
  | num q => exact Option.noConfusion hrun
  | str t2 => exact Option.noConfusion hrun
  | arr xs => exact Option.noConfusion hrun

/-- A run of carrier steps touches only the `carriers` key. -/
theorem csteps_dGet_ne (cs : List JVal) (r r' : JObj) (k : String)
    (hrun : carrierSteps r cs = some r') (hk : k ≠ "carriers") :
    dGet r' k = dGet r k := by
  induction cs generalizing r with
  | nil =>
    injection hrun with h
    rw [← h]
  | cons c rest ih =>
    simp only [carrierSteps] at hrun
    cases hcf : carrierStep r c with
    | none =>
      rw [hcf] at hrun
      exact Option.noConfusion hrun
    | some r2 =>
      rw [hcf] at hrun
      exact (ih r2 hrun).trans (cstep_dGet_ne r c r2 k hcf hk)

/-- The carriers pass touches only the `carriers` key. -/
theorem cstage_dGet_ne (exts : List JObj) (r r' : JObj) (k : String)
    (hrun : carrierStage r exts = some r') (hk : k ≠ "carriers") :
    dGet r' k = dGet r k := by
  induction exts generalizing r with
  | nil =>
    injection hrun with h
    rw [← h]
  | cons ext rest ih =>
    simp only [carrierStage] at hrun
    cases hpi : pyIterL (dGetD ext "carriers" (.arr [])) with
    | none =>
      rw [hpi] at hrun
      exact Option.noConfusion hrun
    | some cs =>
      simp only [hpi] at hrun
      cases hcs : carrierSteps r cs with
      | none =>
        rw [hcs] at hrun
        exact Option.noConfusion hrun
      | some r2 =>
        simp only [hcs] at hrun
        exact (ih r2 hrun).trans (csteps_dGet_ne cs r r2 k hcs hk)

/-- The section-field reader only looks at the form key's value. -/
theorem sectionField_congr (d1 d2 : JObj) (fk s f : String)
    (h : dGet d1 fk = dGet d2 fk) :
    sectionField d1 fk s f = sectionField d2 fk s f := by
  simp only [sectionField, pyGet, dGetD, h]

/-- C1 (corrected): merge monotonicity holds for the top-level fields of
the four `acord25` coverage sections — when the backfill pass succeeds,
any field that some source's section dict holds with a truthy value is
truthy in the result, provided the merged section reads as a dict.  The
original claim extended this to leaves nested inside a section's
`limits` sub-record, which is refuted by
`backfill_limits_counterexample`: the `acord25` branch never descends
into a non-empty merged `limits` dict. -/
theorem backfill_monotone_top_level (recO : JObj) (exts : List JObj)
    (res : JObj) (ext : JObj) (s f : String) (S M : JObj) (v : JVal)
    (hs : s ∈ ["gl", "auto", "umbrella", "workersComp"])
    (hrun : _preserve_fields recO exts = some res)
    (hext : ext ∈ exts)
    (hsrc : sourceSection "acord25" s ext = some (.obj S))
    (hf : dGet S f = some v) (hv : truthy v = true)
    (hbase : readSectionVal recO "acord25" s = some (.obj M)) :
    truthyO (sectionField res "acord25" s f) = true := by
  simp only [_preserve_fields] at hrun
  cases hps : processSections recO exts "acord25"
      ["gl", "auto", "umbrella", "workersComp"] with
  | none =>
    rw [hps] at hrun
    exact Option.noConfusion hrun
  | some r4 =>
    simp only [hps] at hrun
    have h1 : truthyO (sectionField r4 "acord25" s f) = true :=
      pss_establish exts "acord25" s ["gl", "auto", "umbrella", "workersComp"]
        recO r4 M ext S f v hps hs hbase hext hsrc hf hv
    have h7 : dGet (processFormElse (processFormElse (processFormElse r4 exts
        "acord27") exts "acord28") exts "acord30") "acord25" =
        dGet r4 "acord25" := by
      rw [pfe_dGet_ne _ exts "acord30" "acord25" (by decide),
        pfe_dGet_ne _ exts "acord28" "acord25" (by decide),
        pfe_dGet_ne _ exts "acord27" "acord25" (by decide)]
    have h11 : dGet (processTop (processTop (processTop (processTop
        (processFormElse (processFormElse (processFormElse r4 exts "acord27")
          exts "acord28") exts "acord30") exts "insured") exts "producer")
        exts "endorsements") exts "certificateHolder") "acord25" =
        dGet r4 "acord25" := by
      rw [pt_dGet_ne _ exts "certificateHolder" "acord25" (by decide),
        pt_dGet_ne _ exts "endorsements" "acord25" (by decide),
        pt_dGet_ne _ exts "producer" "acord25" (by decide),
        pt_dGet_ne _ exts "insured" "acord25" (by decide)]
      exact h7
    have hcs : dGet res "acord25" = dGet r4 "acord25" :=
      (cstage_dGet_ne exts _ res "acord25" hrun (by decide)).trans h11
    rw [sectionField_congr res r4 "acord25" s f hcs]
    exact h1

/-! ### Carriers-pass lemmas -/

/-- A successful scan's index points at the matched carrier dict. -/
theorem carrierScan_get (xs : List JVal) (name : JVal) (i : Nat) (g : JObj)
    (h : carrierScan xs name = some (some (i, g))) :
    ∃ hlt : i < xs.length, xs.get ⟨i, hlt⟩ = .obj g := by
  induction xs generalizing i with
  | nil =>
    injection h with h2
    exact Option.noConfusion h2
  | cons x rest ih =>
    cases x with
    | obj fs =>
      simp only [carrierScan] at h
      by_cases hm : JVal.pyEq (dGetD fs "name" .null) name = true
      · rw [if_pos hm] at h
        by_cases ha : allObjs rest = true
        · rw [if_pos ha] at h
          injection h with h2
          injection h2 with h3
          injection h3 with h4 h5
          subst h5
          subst h4
          exact ⟨Nat.succ_pos _, rfl⟩
        · rw [if_neg ha] at h
          exact Option.noConfusion h
      · rw [if_neg hm] at h
        cases hcs : carrierScan rest name with
        | none =>
          rw [hcs] at h
          exact Option.noConfusion h
        | some op =>
          simp only [hcs] at h
          cases op with
          | none =>
            injection h with h2
            exact Option.noConfusion h2
          | some pr =>
            cases pr with
            | mk j g2 =>
              injection h with h2
              injection h2 with h3
              injection h3 with h4 h5
              subst h5
              subst h4
              rcases ih j hcs with ⟨hlt, hget⟩
              exact ⟨Nat.succ_lt_succ hlt, hget⟩
    | null => exact Option.noConfusion h
    | bool b => exact Option.noConfusion h
    | num q => exact Option.noConfusion h
    | str t2 => exact Option.noConfusion h
    | arr ys => exact Option.noConfusion h

/-- Anatomy of a successful carrier step: the document is unchanged, or
the carriers slot holds an array and exactly the first matched element
is replaced by its backfilled version. -/
theorem carrierStep_spec (r : JObj) (c : JVal) (r' : JObj)
    (hrun : carrierStep r c = some r') :
    r' = r ∨
    ∃ cF ys i exF, c = .obj cF ∧ dGet r "carriers" = some (.arr ys) ∧
      carrierScan ys (dGetD cF "name" (.str "")) = some (some (i, exF)) ∧
      r' = dSet r "carriers" (.arr (ys.set i (.obj (backfillDict exF cF)))) := by
  cases c with
  | obj cF =>
    simp only [carrierStep] at hrun
    by_cases ht : truthy (dGetD cF "name" (.str "")) = true
    · rw [if_pos ht] at hrun
      cases hdc : dGet r "carriers" with
      | none =>
        have hdd : dGetD r "carriers" (.arr []) = .arr [] := by simp [dGetD, hdc]
        rw [hdd] at hrun
        injection hrun with h
        exact Or.inl h.symm
      | some w =>
        have hdd : dGetD r "carriers" (.arr []) = w := by simp [dGetD, hdc]
        rw [hdd] at hrun
        cases w with
        | arr ys =>
          simp only [pyIterL] at hrun
          cases hcs : carrierScan ys (dGetD cF "name" (.str "")) with
          | none =>
            rw [hcs] at hrun
            exact Option.noConfusion hrun
          | some op =>
            simp only [hcs] at hrun
            cases op with
            | none =>
              injection hrun with h
              exact Or.inl h.symm
            | some pr =>
              cases pr with
              | mk i exF =>
                injection hrun with h
                exact Or.inr ⟨cF, ys, i, exF, rfl, rfl, hcs, h.symm⟩
        | obj gs =>
          cases gs with
          | nil =>
            injection hrun with h
            exact Or.inl h.symm
          | cons p ps => exact Option.noConfusion hrun
        | str t2 =>
          simp only [pyIterL] at hrun
          cases hd : t2.data with
          | nil =>
            rw [hd] at hrun
            injection hrun with h
            exact Or.inl h.symm
          | cons ch chs =>
            rw [hd] at hrun
            exact Option.noConfusion hrun
        | null => exact Option.noConfusion hrun
        | bool b => exact Option.noConfusion hrun
        | num q => exact Option.noConfusion hrun
    · rw [if_neg ht] at hrun
      injection hrun with h
      exact Or.inl h.symm
  | null => exact Option.noConfusion hrun
  | bool b => exact Option.noConfusion hrun
  | num q => exact Option.noConfusion hrun
  | str t2 => exact Option.noConfusion hrun
  | arr xs => exact Option.noConfusion hrun

/-- The carriers list only depends on the `carriers` slot. -/
theorem carriersArr_congr (d1 d2 : JObj)
    (h : dGet d1 "carriers" = dGet d2 "carriers") :
    carriersArr d1 = carriersArr d2 := by
  simp only [carriersArr, h]

/-- Letter presence only depends on the `carriers` slot. -/
theorem hasCarrierLetter_congr (d1 d2 : JObj) (L : String)
    (h : dGet d1 "carriers" = dGet d2 "carriers")
    (hc : hasCarrierLetter d1 L) : hasCarrierLetter d2 L := by
  unfold hasCarrierLetter at hc ⊢
  rw [carriersArr_congr d1 d2 h] at hc
  exact hc

/-- One carrier step keeps every non-empty carrier letter present: the
backfill of a matched carrier never overwrites its truthy `letter`. -/
theorem cstep_letter_pres (r : JObj) (c : JVal) (r' : JObj) (L : String)
    (hrun : carrierStep r c = some r') (hL : truthy (.str L) = true)
    (h : hasCarrierLetter r L) : hasCarrierLetter r' L := by
  rcases carrierStep_spec r c r' hrun with he | ⟨cF, ys, i, exF, hc, hdc, hcs, he⟩
  · rw [he]
    exact h
  · have hca : carriersArr r = ys := by simp [carriersArr, hdc]
    subst hca
    subst he
    rcases h with ⟨j, hj, fs, hget, hlet⟩
    rcases carrierScan_get (carriersArr r) (dGetD cF "name" (.str "")) i exF hcs
      with ⟨hlt, hsg⟩
    have hca2 : carriersArr (dSet r "carriers"
        (.arr ((carriersArr r).set i (.obj (backfillDict exF cF))))) =
        (carriersArr r).set i (.obj (backfillDict exF cF)) := by
      simp [carriersArr, dGet_dSet_self]
    unfold hasCarrierLetter
    rw [hca2]
    by_cases hji : j = i
    · subst hji
      have h9 : JVal.obj fs = JVal.obj exF := hget.symm.trans hsg
      have hfe : fs = exF := by injection h9
      subst hfe
      have hlen : j < ((carriersArr r).set j
          (JVal.obj (backfillDict fs cF))).length := by
        simpa using hj
      refine ⟨j, hlen, backfillDict fs cF, ?_, ?_⟩
      · simp [List.get_eq_getElem]
      · rw [backfillDict_truthy_pres cF fs "letter" (by rw [hlet]; exact hL),
          hlet]
    · have hlen : j < ((carriersArr r).set i
          (JVal.obj (backfillDict exF cF))).length := by
        simpa using hj
      refine ⟨j, hlen, fs, ?_, hlet⟩
      have hij : i ≠ j := fun h2 => hji h2.symm
      simpa [List.get_eq_getElem, List.getElem_set_ne hij] using hget

/-- A run of carrier steps keeps every non-empty carrier letter. -/
theorem csteps_letter_pres (cs : List JVal) (r r' : JObj) (L : String)
    (hrun : carrierSteps r cs = some r') (hL : truthy (.str L) = true)
    (h : hasCarrierLetter r L) : hasCarrierLetter r' L := by
  induction cs generalizing r with
  | nil =>
    injection hrun with h2
    rw [← h2]
    exact h
  | cons c rest ih =>
    simp only [carrierSteps] at hrun
    cases hcf : carrierStep r c with
    | none =>
      rw [hcf] at hrun
      exact Option.noConfusion hrun
    | some r2 =>
      rw [hcf] at hrun
      exact ih r2 hrun (cstep_letter_pres r c r2 L hcf hL h)

/-- The whole carriers pass keeps every non-empty carrier letter. -/
theorem cstage_letter_pres (exts : List JObj) (r r' : JObj) (L : String)
    (hrun : carrierStage r exts = some r') (hL : truthy (.str L) = true)
    (h : hasCarrierLetter r L) : hasCarrierLetter r' L := by
  induction exts generalizing r with
  | nil =>
    injection hrun with h2
    rw [← h2]
    exact h
  | cons ext rest ih =>
    simp only [carrierStage] at hrun
    cases hpi : pyIterL (dGetD ext "carriers" (.arr [])) with
    | none =>
      rw [hpi] at hrun
      exact Option.noConfusion hrun
    | some cs =>
      simp only [hpi] at hrun
      cases hcs : carrierSteps r cs with
      | none =>
        rw [hcs] at hrun
        exact Option.noConfusion hrun
      | some r2 =>
        simp only [hcs] at hrun
        exact ih r2 hrun (csteps_letter_pres cs r r2 L hcs hL h)

/-- C1 witness: the corrected monotonicity theorem discharged at a
concrete base and single source, restoring the GL `effectiveDate`. -/
theorem backfill_monotone_top_level_witness :
    truthyO (sectionField ((_preserve_fields c1WBase [c1WSrc]).getD [])
      "acord25" "gl" "effectiveDate") = true :=
  backfill_monotone_top_level c1WBase [c1WSrc]
    ((_preserve_fields c1WBase [c1WSrc]).getD []) c1WSrc "gl" "effectiveDate"
    [("effectiveDate", .str "01/01/2025")] [("policyNumber", .str "GL-1")]
    (.str "01/01/2025")
    (by decide) rfl (List.mem_singleton.mpr rfl) rfl rfl (by decide) rfl

/-- C6 (corrected): letter consistency after the backfill pass is
conditional, not unconditional — the pass neither re-letters carriers
nor rewrites `insurerLetter` references, so a section's `insurerLetter`
in the result corresponds to a carrier of the merged `carriers` list
only when both the merged base and every source are themselves
letter-consistent with respect to the base's carriers (the unconditional
claim is refuted by `merged_letter_counterexample`, where a source's
differently-lettered reference is copied verbatim). -/
theorem merged_letter_consistency (recO : JObj) (exts : List JObj)
    (res : JObj) (s L : String) (M : JObj)
    (hL : truthy (.str L) = true)
    (hrun : _preserve_fields recO exts = some res)
    (hbase : readSectionVal recO "acord25" s = some (.obj M))
    (hres : sectionField res "acord25" s "insurerLetter" = some (.str L))
    (hbaseC : dGet M "insurerLetter" = some (.str L) → hasCarrierLetter recO L)
    (hsrcC : ∀ ext ∈ exts, ∀ S, sourceSection "acord25" s ext = some (.obj S) →
      ("insurerLetter", JVal.str L) ∈ S → hasCarrierLetter recO L) :
    hasCarrierLetter res L := by
  simp only [_preserve_fields] at hrun
  cases hps : processSections recO exts "acord25"
      ["gl", "auto", "umbrella", "workersComp"] with
  | none =>
    rw [hps] at hrun
    exact Option.noConfusion hrun
  | some r4 =>
    simp only [hps] at hrun
    have h7 : dGet (processFormElse (processFormElse (processFormElse r4 exts
        "acord27") exts "acord28") exts "acord30") "acord25" =
        dGet r4 "acord25" := by
      rw [pfe_dGet_ne _ exts "acord30" "acord25" (by decide),
        pfe_dGet_ne _ exts "acord28" "acord25" (by decide),
        pfe_dGet_ne _ exts "acord27" "acord25" (by decide)]
    have h11 : dGet (processTop (processTop (processTop (processTop
        (processFormElse (processFormElse (processFormElse r4 exts "acord27")
          exts "acord28") exts "acord30") exts "insured") exts "producer")
        exts "endorsements") exts "certificateHolder") "acord25" =
        dGet r4 "acord25" := by
      rw [pt_dGet_ne _ exts "certificateHolder" "acord25" (by decide),
        pt_dGet_ne _ exts "endorsements" "acord25" (by decide),
        pt_dGet_ne _ exts "producer" "acord25" (by decide),
        pt_dGet_ne _ exts "insured" "acord25" (by decide)]
      exact h7
    have hd25 : dGet res "acord25" = dGet r4 "acord25" :=
      (cstage_dGet_ne exts _ res "acord25" hrun (by decide)).trans h11
    rcases pss_shape_pres exts "acord25" s _ recO r4 M hps hbase with ⟨M4, hM4⟩
    have hres4 : dGet M4 "insurerLetter" = some (.str L) := by
      rw [← sectionField_of_sourceSection r4 "acord25" s "insurerLetter" M4 hM4,
        ← sectionField_congr res r4 "acord25" s "insurerLetter" hd25]
      exact hres
    have hrec : hasCarrierLetter recO L := by
      rcases pss_origin exts "acord25" s "insurerLetter"
          ["gl", "auto", "umbrella", "workersComp"] recO r4 M M4 hps hbase hM4
        with h5 | ⟨ext, hext, S, w, ha, hb, hc⟩
      · exact hbaseC (by rw [← h5]; exact hres4)
      · have hw : w = JVal.str L := by
          rw [hres4] at hc
          exact (Option.some.inj hc).symm
        subst hw
        exact hsrcC ext hext S ha hb
    have h7c : dGet (processFormElse (processFormElse (processFormElse r4 exts
        "acord27") exts "acord28") exts "acord30") "carriers" =
        dGet r4 "carriers" := by
      rw [pfe_dGet_ne _ exts "acord30" "carriers" (by decide),
        pfe_dGet_ne _ exts "acord28" "carriers" (by decide),
        pfe_dGet_ne _ exts "acord27" "carriers" (by decide)]
    have h11c : dGet (processTop (processTop (processTop (processTop
        (processFormElse (processFormElse (processFormElse r4 exts "acord27")
          exts "acord28") exts "acord30") exts "insured") exts "producer")
        exts "endorsements") exts "certificateHolder") "carriers" =
        dGet recO "carriers" := by
      rw [pt_dGet_ne _ exts "certificateHolder" "carriers" (by decide),
        pt_dGet_ne _ exts "endorsements" "carriers" (by decide),
        pt_dGet_ne _ exts "producer" "carriers" (by decide),
        pt_dGet_ne _ exts "insured" "carriers" (by decide), h7c]
      exact pss_dGet_ne exts "acord25" "carriers" (by decide) _ recO r4 hps
    have h11L : hasCarrierLetter (processTop (processTop (processTop (processTop
        (processFormElse (processFormElse (processFormElse r4 exts "acord27")
          exts "acord28") exts "acord30") exts "insured") exts "producer")
        exts "endorsements") exts "certificateHolder") L :=
      hasCarrierLetter_congr recO _ L h11c.symm hrec
    exact cstage_letter_pres exts _ res L hrun hL h11L

/-- C6 witness: the conditional letter-consistency theorem discharged at
a letter-consistent base with no sources. -/
theorem merged_letter_consistency_witness :
    hasCarrierLetter ((_preserve_fields c6WBase []).getD []) "A" :=
  merged_letter_consistency c6WBase []
    ((_preserve_fields c6WBase []).getD []) "gl" "A"
    [("insurerLetter", .str "A")]
    rfl rfl rfl rfl
    (fun _ => ⟨0, by decide, [("letter", .str "A"), ("name", .str "Acme")],
      rfl, rfl⟩)
    (fun ext hext => absurd hext (List.not_mem_nil ext))

/-! ### Scalar-path preservation (C10) -/

/-- `ScalarPresV` is reflexive. -/
theorem spv_refl (a : JVal) : ScalarPresV a a :=
  fun _ _ hp _ _ => hp

/-- `ScalarPresV` is transitive. -/
theorem spv_trans {a b c : JVal} (h1 : ScalarPresV a b) (h2 : ScalarPresV b c) :
    ScalarPresV a c :=
  fun p v hp hs hv => h2 p v (h1 p v hp hs hv) hs hv

/-- No truthy scalar is reachable through a falsy value. -/
theorem getP_falsy (w : JVal) (p : List PathEl) (v : JVal)
    (hw : truthy w = false) (h : getP w p = some v)
    (hv : truthy v = true) : False := by
  cases p with
  | nil =>
    simp only [getP] at h
    have hv2 : v = w := (Option.some.inj h).symm
    subst hv2
    rw [hw] at hv
    exact Bool.noConfusion hv
  | cons e rest =>
    cases w with
    | obj fs =>
      cases fs with
      | nil =>
        cases e with
        | key k => simp [getP, dGet] at h
        | idx n => exact Option.noConfusion h
      | cons q qs => simp [truthy, List.isEmpty] at hw
    | arr xs =>
      cases xs with
      | nil =>
        cases e with
        | key k => exact Option.noConfusion h
        | idx n => simp [getP, List.get?] at h
      | cons q qs => simp [truthy, List.isEmpty] at hw
    | null => exact Option.noConfusion h
    | bool b => exact Option.noConfusion h
    | num q2 => exact Option.noConfusion h
    | str t2 => exact Option.noConfusion h

/-- Builder: a dict step preserves truthy scalar paths when every truthy
slot maps to a related slot. -/
theorem spv_obj (m m2 : JObj)
    (h : ∀ f w, dGet m f = some w → truthy w = true →
      ∃ w2, dGet m2 f = some w2 ∧ ScalarPresV w w2) :
    ScalarPresV (.obj m) (.obj m2) := by
  intro p v hp hs hv
  cases p with
  | nil =>
    have hv2 : v = .obj m := (Option.some.inj hp).symm
    subst hv2
    exact absurd hs (by simp [JVal.isScalar])
  | cons e rest =>
    cases e with
    | key k =>
      have hp0 : (dGet m k).bind (fun u => getP u rest) = some v := hp
      cases hd : dGet m k with
      | none =>
        rw [hd] at hp0
        exact Option.noConfusion hp0
      | some w =>
        rw [hd] at hp0
        have hp1 : getP w rest = some v := hp0
        by_cases htw : truthy w = true
        · rcases h k w hd htw with ⟨w2, hd2, hspv⟩
          show (dGet m2 k).bind (fun u => getP u rest) = some v
          rw [hd2]
          exact hspv rest v hp1 hs hv
        · have hf : truthy w = false := by
            cases hb : truthy w
            · rfl
            · exact absurd hb htw
          exact absurd (getP_falsy w rest v hf hp1 hv) id
    | idx n => exact Option.noConfusion hp

/-- Storing into a falsy-or-missing slot preserves truthy scalar paths. -/
theorem spv_dSet_guard (mf : JObj) (field : String) (value : JVal)
    (hguard : truthyO (dGet mf field) = false) :
    ScalarPresV (.obj mf) (.obj (dSet mf field value)) := by
  apply spv_obj
  intro f w hdf htw
  by_cases hf : f = field
  · subst hf
    have h2 : truthy w = false := by
      rw [hdf] at hguard
      exact hguard
    rw [htw] at h2
    exact Bool.noConfusion h2
  · exact ⟨w, by rw [dGet_dSet_ne mf field f _ hf]; exact hdf, spv_refl w⟩

/-- Replacing a slot's value by a related value preserves truthy scalar
paths. -/
theorem spv_dSet_inner (mf : JObj) (field : String) (old new2 : JVal)
    (hold : dGet mf field = some old) (hspv : ScalarPresV old new2) :
    ScalarPresV (.obj mf) (.obj (dSet mf field new2)) := by
  apply spv_obj
  intro f w hdf htw
  by_cases hf : f = field
  · subst hf
    have hw : w = old := by
      rw [hdf] at hold
      exact Option.some.inj hold
    subst hw
    exact ⟨new2, by rw [dGet_dSet_self], hspv⟩
  · exact ⟨w, by rw [dGet_dSet_ne mf field f _ hf]; exact hdf, spv_refl w⟩

/-- The backfill inner loop preserves truthy scalar paths. -/
theorem spv_backfillDict (m src : JObj) :
    ScalarPresV (.obj m) (.obj (backfillDict m src)) := by
  apply spv_obj
  intro f w hd htw
  refine ⟨w, ?_, spv_refl w⟩
  rw [backfillDict_truthy_pres src m f (by rw [hd]; exact htw)]
  exact hd

/-- The sectioned source loop preserves truthy scalar paths of the
merged section. -/
theorem spv_bfs (fk s : String) (exts : List JObj) (ms out : JObj)
    (hrun : backfillFromSources fk s ms exts = some out) :
    ScalarPresV (.obj ms) (.obj out) := by
  induction exts generalizing ms with
  | nil =>
    injection hrun with h
    subst h
    exact spv_refl _
  | cons ext rest ih =>
    simp only [backfillFromSources] at hrun
    cases hsv : sourceSection fk s ext with
    | none =>
      rw [hsv] at hrun
      exact Option.noConfusion hrun
    | some sv =>
      rw [hsv] at hrun
      cases sv with
      | obj sf => exact spv_trans (spv_backfillDict ms sf) (ih _ hrun)
      | null => exact ih _ hrun
      | bool b => exact ih _ hrun
      | num q => exact ih _ hrun
      | str t2 => exact ih _ hrun
      | arr xs => exact ih _ hrun

/-- The top-level source loop preserves truthy scalar paths. -/
theorem spv_bts (tk : String) (exts : List JObj) (mt : JObj) :
    ScalarPresV (.obj mt) (.obj (backfillTopSources tk mt exts)) := by
  induction exts generalizing mt with
  | nil => exact spv_refl _
  | cons ext rest ih =>
    simp only [backfillTopSources]
    cases hd : dGetD ext tk (.obj []) with
    | obj st => exact spv_trans (spv_backfillDict mt st) (ih _)
    | null => exact ih _
    | bool b => exact ih _
    | num q => exact ih _
    | str t2 => exact ih _
    | arr xs => exact ih _

/-- One field step of the sectionless branch preserves truthy scalar
paths. -/
theorem spv_elseField (mf : JObj) (field : String) (value : JVal) :
    ScalarPresV (.obj mf) (.obj (elseField mf field value)) := by
  cases value with
  | obj subF =>
    simp only [elseField]
    cases hd : dGetD mf field (.obj []) with
    | obj msubF =>
      cases hdg : dGet mf field with
      | none => exact spv_dSet_guard mf field _ (by rw [hdg]; rfl)
      | some w =>
        have hw : w = .obj msubF := by
          have h2 : dGetD mf field (.obj []) = w := by simp [dGetD, hdg]
          rw [h2] at hd
          exact hd
        subst hw
        exact spv_dSet_inner mf field _ _ hdg (spv_backfillDict msubF subF)
    | null => exact spv_refl _
    | bool b => exact spv_refl _
    | num q => exact spv_refl _
    | str t2 => exact spv_refl _
    | arr xs => exact spv_refl _
  | null =>
    simp only [elseField]
    by_cases hc : (truthy JVal.null && !truthyO (dGet mf field)) = true
    · rw [if_pos hc]
      have hg : truthyO (dGet mf field) = false := by
        cases hb : truthyO (dGet mf field)
        · rfl
        · rw [hb] at hc
          simp at hc
      exact spv_dSet_guard mf field _ hg
    · rw [if_neg hc]
      exact spv_refl _
  | bool b =>
    simp only [elseField]
    by_cases hc : (truthy (JVal.bool b) && !truthyO (dGet mf field)) = true
    · rw [if_pos hc]
      have hg : truthyO (dGet mf field) = false := by
        cases hb : truthyO (dGet mf field)
        · rfl
        · rw [hb] at hc
          simp at hc
      exact spv_dSet_guard mf field _ hg
    · rw [if_neg hc]
      exact spv_refl _
  | num q =>
    simp only [elseField]
    by_cases hc : (truthy (JVal.num q) && !truthyO (dGet mf field)) = true
    · rw [if_pos hc]
      have hg : truthyO (dGet mf field) = false := by
        cases hb : truthyO (dGet mf field)
        · rfl
        · rw [hb] at hc
          simp at hc
      exact spv_dSet_guard mf field _ hg
    · rw [if_neg hc]
      exact spv_refl _
  | str t2 =>
    simp only [elseField]
    by_cases hc : (truthy (JVal.str t2) && !truthyO (dGet mf field)) = true
    · rw [if_pos hc]
      have hg : truthyO (dGet mf field) = false := by
        cases hb : truthyO (dGet mf field)
        · rfl
        · rw [hb] at hc
          simp at hc
      exact spv_dSet_guard mf field _ hg
    · rw [if_neg hc]
      exact spv_refl _
  | arr xs =>
    simp only [elseField]
    by_cases hc : (truthy (JVal.arr xs) && !truthyO (dGet mf field)) = true
    · rw [if_pos hc]
      have hg : truthyO (dGet mf field) = false := by
        cases hb : truthyO (dGet mf field)
        · rfl
        · rw [hb] at hc
          simp at hc
      exact spv_dSet_guard mf field _ hg
    · rw [if_neg hc]
      exact spv_refl _

/-- A fold of field steps preserves truthy scalar paths. -/
theorem spv_elseFields (l : List (String × JVal)) (mf : JObj) :
    ScalarPresV (.obj mf) (.obj (elseFields mf l)) := by
  induction l generalizing mf with
  | nil => exact spv_refl _
  | cons p rest ih =>
    obtain ⟨f, v⟩ := p
    exact spv_trans (spv_elseField mf f v) (ih _)

/-- The sectionless source loop preserves truthy scalar paths. -/
theorem spv_elseExts (fk : String) (exts : List JObj) (mf : JObj) (b : Bool) :
    ScalarPresV (.obj mf) (.obj (elseExts fk mf b exts).1) := by
  induction exts generalizing mf b with
  | nil => exact spv_refl _
  | cons ext rest ih =>
    simp only [elseExts]
    cases hp : pyOrEmptyObj (pyGet ext fk) with
    | obj sf => exact spv_trans (spv_elseFields sf mf) (ih _ _)
    | null => exact ih _ _
    | bool b2 => exact ih _ _
    | num q => exact ih _ _
    | str t2 => exact ih _ _
    | arr xs => exact ih _ _

/-- The sectionless branch preserves truthy scalar paths. -/
theorem spv_pfe (r : JObj) (exts : List JObj) (fk : String) :
    ScalarPresV (.obj r) (.obj (processFormElse r exts fk)) := by
  cases hp : pyOrEmptyObj (pyGet r fk) with
  | obj mf0 =>
    simp only [processFormElse, hp]
    cases hee : elseExts fk mf0 false exts with
    | mk mfF assigned =>
      cases assigned with
      | true =>
        cases hdg : dGet r fk with
        | none => exact spv_dSet_guard r fk _ (by rw [hdg]; rfl)
        | some w =>
          by_cases htw : truthy w = true
          · have hw : w = .obj mf0 := by
              rw [pyGet_of_some r fk w hdg] at hp
              simp only [pyOrEmptyObj] at hp
              rw [if_pos htw] at hp
              exact hp
            subst hw
            have hspv : ScalarPresV (.obj mf0) (.obj mfF) := by
              have h2 := spv_elseExts fk exts mf0 false
              rw [hee] at h2
              exact h2
            exact spv_dSet_inner r fk _ _ hdg hspv
          · have hf : truthy w = false := by
              cases hb : truthy w
              · rfl
              · exact absurd hb htw
            exact spv_dSet_guard r fk _ (by rw [hdg]; exact hf)
      | false => exact spv_refl _
  | null =>
    simp only [processFormElse, hp]
    exact spv_refl _
  | bool b =>
    simp only [processFormElse, hp]
    exact spv_refl _
  | num q =>
    simp only [processFormElse, hp]
    exact spv_refl _
  | str t2 =>
    simp only [processFormElse, hp]
    exact spv_refl _
  | arr xs =>
    simp only [processFormElse, hp]
    exact spv_refl _

/-- One key of the top-level pass preserves truthy scalar paths. -/
theorem spv_pt (r : JObj) (exts : List JObj) (tk : String) :
    ScalarPresV (.obj r) (.obj (processTop r exts tk)) := by
  cases hp : dGetD r tk (.obj []) with
  | obj mt0 =>
    simp only [processTop, hp]
    cases hdg : dGet r tk with
    | none => exact spv_dSet_guard r tk _ (by rw [hdg]; rfl)
    | some w =>
      have hw : w = .obj mt0 := by
        have h2 : dGetD r tk (.obj []) = w := by simp [dGetD, hdg]
        rw [h2] at hp
        exact hp
      subst hw
      exact spv_dSet_inner r tk _ _ hdg (spv_bts tk exts mt0)
  | null =>
    simp only [processTop, hp]
    exact spv_refl _
  | bool b =>
    simp only [processTop, hp]
    exact spv_refl _
  | num q =>
    simp only [processTop, hp]
    exact spv_refl _
  | str t2 =>
    simp only [processTop, hp]
    exact spv_refl _
  | arr xs =>
    simp only [processTop, hp]
    exact spv_refl _

/-- One section pass preserves truthy scalar paths. -/
theorem spv_ps (r : JObj) (exts : List JObj) (fk s : String) (r' : JObj)
    (hrun : processSection r exts fk s = some r') :
    ScalarPresV (.obj r) (.obj r') := by
  rcases processSection_spec r exts fk s r' hrun with ⟨v, hw1, hw2, he⟩ |
    ⟨ms0, msF, hss, hbf, ⟨hemp, he⟩ | ⟨hemp, ⟨fs, hdg, hms, he⟩ | ⟨hdg, hms, he⟩⟩⟩
  · subst he
    exact spv_refl _
  · subst he
    exact spv_refl _
  · subst he
    have hinner : ScalarPresV (.obj fs) (.obj (dSet fs s (.obj msF))) := by
      cases hda : dGet fs s with
      | none => exact spv_dSet_guard fs s _ (by rw [hda]; rfl)
      | some u =>
        have hu : u = .obj ms0 := by
          have h2 : dGetD fs s (.obj []) = u := by simp [dGetD, hda]
          rw [h2] at hms
          exact hms
        subst hu
        exact spv_dSet_inner fs s _ _ hda (spv_bfs fk s exts ms0 msF hbf)
    exact spv_dSet_inner r fk _ _ hdg hinner
  · subst he
    apply spv_obj
    intro f w hdf htw
    by_cases hf : f = fk
    · subst hf
      rw [hdf] at hdg
      exact Option.noConfusion hdg
    · refine ⟨w, ?_, spv_refl w⟩
      rw [dGet_append_single r f fk _ hf]
      exact hdf

/-- The whole sectioned pass preserves truthy scalar paths. -/
theorem spv_pss (exts : List JObj) (fk : String) (L : List String)
    (r r' : JObj) (hrun : processSections r exts fk L = some r') :
    ScalarPresV (.obj r) (.obj r') := by
  induction L generalizing r with
  | nil =>
    injection hrun with h
    subst h
    exact spv_refl _
  | cons s rest ih =>
    simp only [processSections] at hrun
    cases hps : processSection r exts fk s with
    | none =>
      rw [hps] at hrun
      exact Option.noConfusion hrun
    | some r2 =>
      rw [hps] at hrun
      exact spv_trans (spv_ps r exts fk s r2 hps) (ih r2 hrun)

/-- Replacing one list element by a related value preserves truthy
scalar paths through the array. -/
theorem spv_arr_set (xs : List JVal) (i : Nat) (old new2 : JVal)
    (hlt : i < xs.length) (hgeq : xs.get ⟨i, hlt⟩ = old)
    (hspv : ScalarPresV old new2) :
    ScalarPresV (.arr xs) (.arr (xs.set i new2)) := by
  intro p v hp hs hv
  cases p with
  | nil =>
    simp only [getP] at hp
    have hv2 : v = .arr xs := (Option.some.inj hp).symm
    subst hv2
    exact absurd hs (by simp [JVal.isScalar])
  | cons e rest =>
    cases e with
    | key k => exact Option.noConfusion hp
    | idx n =>
      have hp0 : (xs.get? n).bind (fun u => getP u rest) = some v := hp
      cases hgn : xs.get? n with
      | none =>
        rw [hgn] at hp0
        exact Option.noConfusion hp0
      | some u =>
        rw [hgn] at hp0
        have hp1 : getP u rest = some v := hp0
        show ((xs.set i new2).get? n).bind (fun u2 => getP u2 rest) = some v
        by_cases hni : n = i
        · subst hni
          have hu : u = old := by
            rw [List.get?_eq_get hlt] at hgn
            have h3 := Option.some.inj hgn
            rw [← h3]
            exact hgeq
          subst hu
          have hset : (xs.set n new2).get? n = some new2 := by
            rw [List.get?_eq_get (by simpa using hlt)]
            simp [List.get_eq_getElem]
          rw [hset]
          exact hspv rest v hp1 hs hv
        · have hset : (xs.set i new2).get? n = xs.get? n := by
            simp [List.getElem?_set_ne (fun h2 => hni h2.symm)]
          rw [hset, hgn]
          exact hp1

/-- One carrier step preserves truthy scalar paths. -/
theorem spv_cstep (r : JObj) (c : JVal) (r' : JObj)
    (hrun : carrierStep r c = some r') :
    ScalarPresV (.obj r) (.obj r') := by
  rcases carrierStep_spec r c r' hrun with he | ⟨cF, ys, i, exF, hc, hdc, hcs, he⟩
  · subst he
    exact spv_refl _
  · subst he
    rcases carrierScan_get ys _ i exF hcs with ⟨hlt, hget⟩
    exact spv_dSet_inner r "carriers" _ _ hdc
      (spv_arr_set ys i (.obj exF) _ hlt hget (spv_backfillDict exF cF))

/-- A run of carrier steps preserves truthy scalar paths. -/
theorem spv_csteps (cs : List JVal) (r r' : JObj)
    (hrun : carrierSteps r cs = some r') :
    ScalarPresV (.obj r) (.obj r') := by
  induction cs generalizing r with
  | nil =>
    injection hrun with h
    subst h
    exact spv_refl _
  | cons c rest ih =>
    simp only [carrierSteps] at hrun
    cases hcf : carrierStep r c with
    | none =>
      rw [hcf] at hrun
      exact Option.noConfusion hrun
    | some r2 =>
      rw [hcf] at hrun
      exact spv_trans (spv_cstep r c r2 hcf) (ih r2 hrun)

/-- The whole carriers pass preserves truthy scalar paths. -/
theorem spv_cstage (exts : List JObj) (r r' : JObj)
    (hrun : carrierStage r exts = some r') :
    ScalarPresV (.obj r) (.obj r') := by
  induction exts generalizing r with
  | nil =>
    injection hrun with h
    subst h
    exact spv_refl _
  | cons ext rest ih =>
    simp only [carrierStage] at hrun
    cases hpi : pyIterL (dGetD ext "carriers" (.arr [])) with
    | none =>
      rw [hpi] at hrun
      exact Option.noConfusion hrun
    | some cs =>
      simp only [hpi] at hrun
      cases hcs : carrierSteps r cs with
      | none =>
        rw [hcs] at hrun
        exact Option.noConfusion hrun
      | some r2 =>
        simp only [hcs] at hrun
        exact spv_trans (spv_csteps cs r r2 hcs) (ih r2 hrun)

/-- C10 (corrected): the backfill pass preserves every truthy SCALAR
value at any key/index path of the reconciled document — it only fills
empty or missing slots and never replaces an existing truthy scalar.
The original claim over all values is refuted by
`backfill_overwrite_counterexample`: container values can gain members
in place. -/
theorem backfill_preserves_truthy_scalars (recO : JObj) (exts : List JObj)
    (res : JObj) (p : List PathEl) (v : JVal)
    (hrun : _preserve_fields recO exts = some res)
    (hget : getP (.obj recO) p = some v)
    (hs : v.isScalar = true) (hv : truthy v = true) :
    getP (.obj res) p = some v := by
  simp only [_preserve_fields] at hrun
  cases hps : processSections recO exts "acord25"
      ["gl", "auto", "umbrella", "workersComp"] with
  | none =>
    rw [hps] at hrun
    exact Option.noConfusion hrun
  | some r4 =>
    simp only [hps] at hrun
    exact spv_trans (spv_pss exts "acord25" _ recO r4 hps)
      (spv_trans (spv_pfe r4 exts "acord27")
      (spv_trans (spv_pfe _ exts "acord28")
      (spv_trans (spv_pfe _ exts "acord30")
      (spv_trans (spv_pt _ exts "insured")
      (spv_trans (spv_pt _ exts "producer")
      (spv_trans (spv_pt _ exts "endorsements")
      (spv_trans (spv_pt _ exts "certificateHolder")
        (spv_cstage exts _ res hrun)))))))) p v hget hs hv

/-- C10 witness: the scalar-preservation theorem discharged at a
concrete document, keeping the GL policy number intact across a merge
with a source that only enriches the insured block. -/
theorem backfill_preserves_truthy_scalars_witness :
    getP (.obj ((_preserve_fields c10WBase [c10WExt]).getD []))
      [.key "acord25", .key "gl", .key "policyNumber"] =
      some (.str "GL-7") :=
  backfill_preserves_truthy_scalars c10WBase [c10WExt]
    ((_preserve_fields c10WBase [c10WExt]).getD [])
    [.key "acord25", .key "gl", .key "policyNumber"] (.str "GL-7")
    rfl rfl rfl rfl

end Opal
